import Mathlib

/-!
Verification of the Store manifest-review workflow.

Shallow embedding of the two scripts of this repository,
`.github/scripts/bot_commands.py` and `.github/scripts/validate_manifest.py`,
together with theorems settling the frozen claims about them.

Python strings are modelled as `List Char` (a Python `str` is a sequence of
Unicode code points); byte strings handled by the scripts are likewise
modelled as `List Char` token sequences.  External collaborators (the GitHub
API, HTTP transport, PIL image decoding, SHA-256) are modelled as inputs:
each external call's result is a field of an environment record, and the
digest function is an arbitrary function parameter, exactly as the spec's
§6 isolates them.  `json.dumps` / `json.loads` are modelled concretely for
the ledger's restricted value shape (objects mapping strings to strings or
null), since the ledger round trip is itself under verification.
-/

/-- Code points of a Lean string literal; used to write the scripts'
string constants. -/
def chars (s : String) : List Char := s.data

/-- Python `needle in haystack` / `str.index`: index of the first occurrence
of `p` in `s`, if any. -/
def firstIdx (p : List Char) : List Char → Option Nat
  | [] => if p.isPrefixOf ([] : List Char) then some 0 else none
  | c :: t =>
    if p.isPrefixOf (c :: t) then some 0
    else (firstIdx p t).map (· + 1)

/-- Python `p in s`. -/
def containsSub (p s : List Char) : Bool := (firstIdx p s).isSome

/-- Python `dict` assignment `d[k] = v` on an insertion-ordered mapping:
replace in place when the key exists, else append. -/
def dictInsert {β : Type} (d : List (List Char × β)) (k : List Char) (v : β) :
    List (List Char × β) :=
  match d with
  | [] => [(k, v)]
  | (k', v') :: t => if k' = k then (k, v) :: t else (k', v') :: dictInsert t k v

/-- Python `d.get(k)` / `k in d`. -/
def dictGet {β : Type} (d : List (List Char × β)) (k : List Char) : Option β :=
  match d with
  | [] => none
  | (k', v) :: t => if k' = k then some v else dictGet t k

/-! ## Embedding of `.github/scripts/bot_commands.py` -/

def MARKER_START : List Char := chars "<!-- MANIFEST_HASHES"

def MARKER_END : List Char := chars "END MANIFEST_HASHES -->"

/-- Default of the configurable moderator identity `BOT_USER`. -/
def MODERATOR : List Char := chars "Artyomka628"

/-- Default of the configurable moderator identity `BOT_USER2`. -/
def MODERATOR2 : List Char := chars "QuietOS-dev"

/-- An observable platform effect of one run of the dispatcher. Consulting the
published ledger (`find_marker_comment` or `compute_current_hashes`, both
defined in `bot_commands.py`) would surface as `readLedger`; `main` never
invokes either helper. -/
inductive BotAction where
  | comment (body : List Char)
  | removeLabel (lab : List Char)
  | addLabel (lab : List Char)
  | runValidate
  | readLedger
  deriving DecidableEq, Repr

def isLedgerRead : BotAction → Bool
  | BotAction.readLedger => true
  | _ => false

/-- `remove_labels` of `bot_commands.py`: attempt removal of each listed label
that is currently present. -/
def remove_labels (existing toRemove : List (List Char)) : List BotAction :=
  toRemove.filterMap fun lab =>
    if lab ∈ existing then some (BotAction.removeLabel lab) else none

/-- `compute_current_hashes` of `bot_commands.py`: digest of every changed
manifest file at the PR head; an unreadable file maps to the null sentinel.
`hash` stands for `sha256_bytes`, `files` pairs each changed file's path with
its content-fetch outcome. -/
def compute_current_hashes (hash : List Char → List Char)
    (files : List (List Char × Except (List Char) (List Char))) :
    List (List Char × Option (List Char)) :=
  (files.filter fun f =>
      (chars "manifests/").isPrefixOf f.1 && (chars ".json").isSuffixOf f.1).foldl
    (fun hashes mf =>
      match mf.2 with
      | Except.ok b => dictInsert hashes mf.1 (some (hash b))
      | Except.error _ => dictInsert hashes mf.1 none)
    []

/-! Message strings of `bot_commands.py`, code point for code point (the file
stores its emoji double-encoded; the `\u...` escapes below reproduce the
characters actually present in the source literals). -/

def ackMsg (user : List Char) : List Char :=
  chars "üîÅ Running manifest validation as requested by @" ++
    user ++ chars "..."

def checkDoneMsg : List Char := chars "‚úÖ Validation completed."

def checkWarnMsg : List Char :=
  chars "‚ö†Ô∏è Validation finished with internal note. See comments above."

def onlyModsMsg (m1 m2 : List Char) : List Char :=
  chars "‚ùå Only @" ++ m1 ++ chars " or @" ++ m2 ++
    chars " can approve or deny PRs."

def approvedMsg : List Char := chars "‚úÖ PR has been approved by moderator."

def rejectedMsg : List Char := chars "‚ùå PR has been rejected by moderator."

def debugMsg (user : List Char) : List Char :=
  chars "DEBUG: comment_user = '" ++ user ++ chars "'"

def unknownCmdMsg : List Char :=
  chars "‚ÑπÔ∏è Unknown command. Supported: `@bot check`, `@bot allow`, `@bot deny`."

/-- The dispatcher `main` of `bot_commands.py` from the point where
`comment_body` and `comment_user` have been extracted (line 104 on), as the
list of platform effects it performs.  `isPullRequestEvent` models
`"pull_request" in event`, `mod1`/`mod2` the configured moderator identities,
`labels` the PR's current label set, and `validateExit` the return code of the
spawned validation script.  The statements of lines 138-154 follow the
unconditional `return` of line 136 and are embedded separately as
`deadDenyAndUnknown`. -/
def dispatch (mod1 mod2 : List Char) (isPullRequestEvent : Bool)
    (body user : List Char) (labels : List (List Char)) (validateExit : Nat) :
    List BotAction :=
  if ¬ containsSub (chars "@bot") body then
    if isPullRequestEvent then [BotAction.runValidate] else []
  else if containsSub (chars "@bot check") body then
    [BotAction.comment (ackMsg user), BotAction.runValidate] ++
      (if validateExit = 0 then [BotAction.comment checkDoneMsg]
       else [BotAction.comment checkWarnMsg])
  else if containsSub (chars "@bot allow") body ∧ user ≠ mod1 ∧ user ≠ mod2 then
    [BotAction.comment (onlyModsMsg mod1 mod2)]
  else
    remove_labels labels
        [chars "Invalid manifest", chars "Under review", chars "Rejected"] ++
      [BotAction.addLabel (chars "Approved"), BotAction.comment approvedMsg]

/-- Lines 138-154 of `bot_commands.py` (the `deny` handler and the
unknown-command notice): they sit after the unconditional `return` of line 136,
so `dispatch` never executes them; embedded here to record what they would
do. -/
def deadDenyAndUnknown (mod1 mod2 : List Char) (body user : List Char)
    (labels : List (List Char)) : List BotAction :=
  if containsSub (chars "@bot deny") body then
    if user ≠ mod1 ∧ user ≠ mod2 then
      [BotAction.comment (debugMsg user), BotAction.comment (onlyModsMsg mod1 mod2)]
    else
      remove_labels labels
          [chars "Invalid manifest", chars "Under review", chars "Approved"] ++
        [BotAction.addLabel (chars "Rejected"), BotAction.comment rejectedMsg]
  else
    [BotAction.comment unknownCmdMsg]

/-! Helper lemmas about the dispatcher. -/

theorem mem_remove_labels {a : BotAction} {ex rm : List (List Char)}
    (h : a ∈ remove_labels ex rm) : ∃ l, a = BotAction.removeLabel l := by
  unfold remove_labels at h
  rcases List.mem_filterMap.mp h with ⟨l, -, hif⟩
  by_cases hc : l ∈ ex
  · simp only [hc, if_pos] at hif
    exact ⟨l, (Option.some.inj hif).symm⟩
  · simp [hc] at hif

theorem ne_msg_of_take_ne {p r m : List Char} {n : Nat} (hlen : n ≤ p.length)
    (hne : p.take n ≠ m.take n) : p ++ r ≠ m := by
  intro h
  exact hne (by rw [← h, List.take_append_of_le_length hlen])

theorem ackMsg_ne_unknown (user : List Char) : ackMsg user ≠ unknownCmdMsg := by
  unfold ackMsg
  simp only [List.append_assoc]
  exact ne_msg_of_take_ne (n := 1) (by decide) (by decide)

theorem ackMsg_ne_rejected (user : List Char) : ackMsg user ≠ rejectedMsg := by
  unfold ackMsg
  simp only [List.append_assoc]
  exact ne_msg_of_take_ne (n := 1) (by decide) (by decide)

theorem onlyMods_ne_unknown (m1 m2 : List Char) :
    onlyModsMsg m1 m2 ≠ unknownCmdMsg := by
  unfold onlyModsMsg
  simp only [List.append_assoc]
  exact ne_msg_of_take_ne (n := 2) (by decide) (by decide)

theorem onlyMods_ne_rejected (m1 m2 : List Char) :
    onlyModsMsg m1 m2 ≠ rejectedMsg := by
  unfold onlyModsMsg
  simp only [List.append_assoc]
  exact ne_msg_of_take_ne (n := 5) (by decide) (by decide)

theorem approve_block_shape {a : BotAction} {labels rm : List (List Char)}
    (h : a ∈ remove_labels labels rm ++
      [BotAction.addLabel (chars "Approved"), BotAction.comment approvedMsg]) :
    (∃ l, a = BotAction.removeLabel l) ∨
      a = BotAction.addLabel (chars "Approved") ∨
      a = BotAction.comment approvedMsg := by
  rcases List.mem_append.mp h with h1 | h1
  · exact Or.inl (mem_remove_labels h1)
  · simp only [List.mem_cons, List.not_mem_nil, or_false] at h1
    exact Or.inr h1

/-- C1 counterexample: the identity `eve` is in neither moderator slot, yet its
`@bot deny` comment changes labels: the dispatcher falls through the `allow`
handler's fallthrough block, removes `Under review` and adds `Approved`. -/
theorem C1_counterexample :
    (chars "eve" ≠ MODERATOR ∧ chars "eve" ≠ MODERATOR2) ∧
    dispatch MODERATOR MODERATOR2 false (chars "@bot deny") (chars "eve")
        [chars "Under review"] 0 =
      [BotAction.removeLabel (chars "Under review"),
       BotAction.addLabel (chars "Approved"),
       BotAction.comment approvedMsg] := by
  exact ⟨⟨by decide, by decide⟩, by decide⟩

/-- C1 (amended): for a bot-addressed comment that is not a `check` and
carries `allow` or `deny`: a non-allow-listed author of an `allow` gets only
the abort comment (no label change); every other case — an allow-listed
`allow`, but also a `deny` from **any** author — removes the other three
workflow labels where present and adds `Approved` (never `Rejected`). -/
theorem C1_allow_deny_dispatch (mod1 mod2 body user : List Char)
    (labels : List (List Char)) (validateExit : Nat) (isPR : Bool)
    (hbot : containsSub (chars "@bot") body = true)
    (hnc : containsSub (chars "@bot check") body = false)
    (_hcmd : containsSub (chars "@bot allow") body = true ∨
             containsSub (chars "@bot deny") body = true) :
    dispatch mod1 mod2 isPR body user labels validateExit =
      if containsSub (chars "@bot allow") body ∧ user ≠ mod1 ∧ user ≠ mod2 then
        [BotAction.comment (onlyModsMsg mod1 mod2)]
      else
        remove_labels labels
            [chars "Invalid manifest", chars "Under review", chars "Rejected"] ++
          [BotAction.addLabel (chars "Approved"), BotAction.comment approvedMsg] := by
  unfold dispatch
  simp [hbot, hnc]

/-- Witness for `C1_allow_deny_dispatch`: the non-moderator `eve` issuing
`@bot deny` on a label-free PR yields the approval transition. -/
theorem C1_allow_deny_dispatch_witness :
    dispatch MODERATOR MODERATOR2 false (chars "@bot deny") (chars "eve") [] 0 =
      [BotAction.addLabel (chars "Approved"), BotAction.comment approvedMsg] := by
  have h := C1_allow_deny_dispatch MODERATOR MODERATOR2 (chars "@bot deny")
    (chars "eve") [] 0 false (by decide) (by decide) (Or.inr (by decide))
  rw [h]
  decide

/-- C2, evaluated at the failing input: the allow-listed moderator issues
`@bot allow` on a PR under review; the dispatcher immediately removes labels
and adds `Approved`, and no action of the run consults the published ledger
(no `readLedger`): `main` never invokes `find_marker_comment` or
`compute_current_hashes`, so the terminal transition happens without any
drift check. -/
theorem C2_no_ledger_consultation :
    dispatch MODERATOR MODERATOR2 false (chars "@bot allow") MODERATOR
        [chars "Under review"] 0 =
      [BotAction.removeLabel (chars "Under review"),
       BotAction.addLabel (chars "Approved"),
       BotAction.comment approvedMsg] ∧
    (dispatch MODERATOR MODERATOR2 false (chars "@bot allow") MODERATOR
        [chars "Under review"] 0).all (fun a => !(isLedgerRead a)) = true := by
  exact ⟨by decide, by decide⟩

/-- C3: for every comment event addressed to the bot, the dispatcher never
adds the `Rejected` label, never posts the rejected confirmation and never
posts the unsupported-command notice: the `deny` branch and the unknown
command branch of `main` sit after the unconditional `return` of the
`allow` handler and are unreachable. -/
theorem C3_deny_unknown_unreachable (mod1 mod2 body user : List Char)
    (labels : List (List Char)) (validateExit : Nat) (isPR : Bool)
    (hbot : containsSub (chars "@bot") body = true) :
    BotAction.addLabel (chars "Rejected") ∉
        dispatch mod1 mod2 isPR body user labels validateExit ∧
    BotAction.comment unknownCmdMsg ∉
        dispatch mod1 mod2 isPR body user labels validateExit ∧
    BotAction.comment rejectedMsg ∉
        dispatch mod1 mod2 isPR body user labels validateExit := by
  unfold dispatch
  rw [if_neg (not_not_intro hbot)]
  by_cases hc : containsSub (chars "@bot check") body = true
  · rw [if_pos hc]
    refine ⟨?_, ?_, ?_⟩ <;> intro hmem <;>
      (rcases List.mem_append.mp hmem with h | h
       · simp only [List.mem_cons, List.not_mem_nil, or_false] at h
         rcases h with h | h
         · first
           | exact BotAction.noConfusion h
           | (injection h with h2
              exact absurd h2 (Ne.symm (ackMsg_ne_unknown user)))
           | (injection h with h2
              exact absurd h2 (Ne.symm (ackMsg_ne_rejected user)))
         · exact BotAction.noConfusion h
       · split at h <;>
           (simp only [List.mem_cons, List.not_mem_nil, or_false] at h
            first
            | exact BotAction.noConfusion h
            | (injection h with h2
               exact absurd h2 (by decide))))
  · rw [if_neg hc]
    by_cases ha : containsSub (chars "@bot allow") body = true ∧
        user ≠ mod1 ∧ user ≠ mod2
    · rw [if_pos ha]
      refine ⟨?_, ?_, ?_⟩ <;> intro hmem <;>
        (simp only [List.mem_cons, List.not_mem_nil, or_false] at hmem
         first
         | exact BotAction.noConfusion hmem
         | (injection hmem with h2
            exact absurd h2 (Ne.symm (onlyMods_ne_unknown mod1 mod2)))
         | (injection hmem with h2
            exact absurd h2 (Ne.symm (onlyMods_ne_rejected mod1 mod2))))
    · rw [if_neg ha]
      refine ⟨?_, ?_, ?_⟩ <;> intro hmem <;>
        (rcases approve_block_shape hmem with ⟨l, hl⟩ | h1 | h1
         · exact BotAction.noConfusion hl
         · first
           | exact BotAction.noConfusion h1
           | (injection h1 with h2
              exact absurd h2 (by decide))
         · first
           | exact BotAction.noConfusion h1
           | (injection h1 with h2
              exact absurd h2 (by decide)))

/-- Witness for `C3_deny_unknown_unreachable` at a concrete bot-addressed
comment. -/
theorem C3_deny_unknown_unreachable_witness :
    BotAction.addLabel (chars "Rejected") ∉
      dispatch MODERATOR MODERATOR2 false (chars "@bot frobnicate")
        (chars "someone") [chars "Rejected"] 0 :=
  (C3_deny_unknown_unreachable MODERATOR MODERATOR2 (chars "@bot frobnicate")
    (chars "someone") [chars "Rejected"] 0 false (by decide)).1

/-! ## The hash-ledger annotation: `post_marker_comment` (`validate_manifest.py`
lines 54-65) and `find_marker_comment` (`bot_commands.py` lines 35-47), with a
concrete model of `json.dumps(..., ensure_ascii=False, indent=2)` and
`json.loads` restricted to the ledger's value shape: a JSON object mapping
strings to strings or `null`. -/

/-- A ledger mapping: manifest file path to digest string or null sentinel,
in dict insertion order. -/
abbrev Ledger := List (List Char × Option (List Char))

def hexDig (n : Nat) : Char :=
  if n < 10 then Char.ofNat ('0'.toNat + n) else Char.ofNat ('a'.toNat + n - 10)

/-- `json.dumps` escaping of one character (`ensure_ascii=False`): short
escapes for the two delimiters and the common control characters, `\u00XX`
for the remaining control characters, identity otherwise. -/
def escChar (c : Char) : List Char :=
  if c = '"' then ['\\', '"']
  else if c = '\\' then ['\\', '\\']
  else if c = '\n' then ['\\', 'n']
  else if c = '\t' then ['\\', 't']
  else if c = '\r' then ['\\', 'r']
  else if c = '\x08' then ['\\', 'b']
  else if c = '\x0c' then ['\\', 'f']
  else if c.toNat < 32 then
    ['\\', 'u', '0', '0', hexDig (c.toNat / 16), hexDig (c.toNat % 16)]
  else [c]

def escStr : List Char → List Char
  | [] => []
  | c :: t => escChar c ++ escStr t

/-- A JSON string literal: `"` + escaped content + `"`. -/
def jquote (s : List Char) : List Char := '"' :: (escStr s ++ ['"'])

/-- A serialized ledger value: a string literal or `null`. -/
def jval : Option (List Char) → List Char
  | none => chars "null"
  | some s => jquote s

/-- One `indent=2` object member line: two spaces, key, `": "`, value. -/
def jentry (kv : List Char × Option (List Char)) : List Char :=
  chars "  " ++ jquote kv.1 ++ chars ": " ++ jval kv.2

/-- The member lines joined by `",\n"`. -/
def jentries : Ledger → List Char
  | [] => []
  | [kv] => jentry kv
  | kv :: rest => jentry kv ++ chars ",\n" ++ jentries rest

/-- `json.dumps(data_dict, ensure_ascii=False, indent=2)` for the ledger's
value shape. -/
def jsonDumps (d : Ledger) : List Char :=
  match d with
  | [] => chars "{}"
  | _ => '{' :: '\n' :: (jentries d ++ ('\n' :: ['}']))

/-- The comment body posted by `post_marker_comment`:
`f"{MARKER_START}\n{payload}\n{MARKER_END}"`. -/
def markerBody (d : Ledger) : List Char :=
  MARKER_START ++ '\n' :: (jsonDumps d ++ '\n' :: MARKER_END)

/-- `post_marker_comment` (`validate_manifest.py`): delete every existing
comment containing the start marker, then create the new annotation; the
result is the issue's comment list, oldest first. -/
def post_marker_comment (comments : List (List Char)) (d : Ledger) :
    List (List Char) :=
  (comments.filter fun c => !(containsSub MARKER_START c)) ++ [markerBody d]

def hexVal (c : Char) : Option Nat :=
  if '0' ≤ c ∧ c ≤ '9' then some (c.toNat - '0'.toNat)
  else if 'a' ≤ c ∧ c ≤ 'f' then some (c.toNat - 'a'.toNat + 10)
  else if 'A' ≤ c ∧ c ≤ 'F' then some (c.toNat - 'A'.toNat + 10)
  else none

/-- JSON insignificant whitespace. -/
def jWs (c : Char) : Bool := c = ' ' || c = '\t' || c = '\n' || c = '\r'

def skipWs (s : List Char) : List Char := s.dropWhile jWs

/-- Parse the content of a JSON string literal after its opening quote,
undoing `escChar`; strict mode: an unescaped control character is an error.
Returns the decoded content and the remainder after the closing quote.
Fuelled by the number of decoded characters still allowed (one unit per
produced character), so the recursion is structural. -/
def pStrAux : Nat → List Char → Option (List Char × List Char)
  | 0, _ => none
  | _ + 1, [] => none
  | fuel + 1, c :: cs =>
    if c = '"' then some ([], cs)
    else if c = '\\' then
      match cs with
      | [] => none
      | e :: cs2 =>
        if e = '"' ∨ e = '\\' ∨ e = '/' then
          (pStrAux fuel cs2).map (fun sr => (e :: sr.1, sr.2))
        else if e = 'n' then (pStrAux fuel cs2).map (fun sr => ('\n' :: sr.1, sr.2))
        else if e = 't' then (pStrAux fuel cs2).map (fun sr => ('\t' :: sr.1, sr.2))
        else if e = 'r' then (pStrAux fuel cs2).map (fun sr => ('\r' :: sr.1, sr.2))
        else if e = 'b' then (pStrAux fuel cs2).map (fun sr => ('\x08' :: sr.1, sr.2))
        else if e = 'f' then (pStrAux fuel cs2).map (fun sr => ('\x0c' :: sr.1, sr.2))
        else if e = 'u' then
          match cs2 with
          | h1 :: h2 :: h3 :: h4 :: cs3 =>
            match hexVal h1, hexVal h2, hexVal h3, hexVal h4 with
            | some a, some b, some c1, some d1 =>
              (pStrAux fuel cs3).map
                (fun sr => (Char.ofNat (((a * 16 + b) * 16 + c1) * 16 + d1) :: sr.1, sr.2))
            | _, _, _, _ => none
          | _ => none
        else none
    else if c.toNat < 32 then none
    else (pStrAux fuel cs).map (fun sr => (c :: sr.1, sr.2))

/-- `pStrAux` with the input length as (always sufficient) fuel: each
recursive step consumes at least one input character. -/
def pStr (l : List Char) : Option (List Char × List Char) := pStrAux l.length l

/-- Parse one ledger value: a string literal or `null`. -/
def pVal : List Char → Option (Option (List Char) × List Char)
  | 'n' :: 'u' :: 'l' :: 'l' :: rest => some (none, rest)
  | '"' :: rest => (pStr rest).map (fun sr => (some sr.1, sr.2))
  | _ => none

/-- Parse the members of a nonempty JSON object, positioned at the opening
quote of a key; fuelled by the number of members still allowed. -/
def pMembersAux : Nat → List Char → Option (Ledger × List Char)
  | 0, _ => none
  | fuel + 1, l =>
    match l with
    | [] => none
    | c :: r =>
      if c = '"' then
        match pStr r with
        | none => none
        | some (k, r1) =>
          match skipWs r1 with
          | [] => none
          | c2 :: r3 =>
            if c2 = ':' then
              match pVal (skipWs r3) with
              | none => none
              | some (v, r4) =>
                match skipWs r4 with
                | [] => none
                | c5 :: r6 =>
                  if c5 = ',' then
                    (pMembersAux fuel (skipWs r6)).map
                      (fun drr => ((k, v) :: drr.1, drr.2))
                  else if c5 = '}' then some ([(k, v)], r6)
                  else none
            else none
      else none

/-- `json.loads` restricted to the ledger grammar; `none` where `json.loads`
raises. Requires the whole input to be consumed (no trailing data). -/
def jsonLoads (l : List Char) : Option Ledger :=
  match skipWs l with
  | [] => none
  | c :: r =>
    if c = '{' then
      match skipWs r with
      | [] => none
      | c2 :: r2 =>
        if c2 = '}' then (if skipWs r2 = [] then some [] else none)
        else
          match pMembersAux ((c2 :: r2).length + 1) (c2 :: r2) with
          | some (d, rest) => if skipWs rest = [] then some d else none
          | none => none
    else none

/-- Python `str.strip()` whitespace. -/
def pySpace (c : Char) : Bool :=
  c = ' ' || c = '\t' || c = '\n' || c = '\r' || c = '\x0b' || c = '\x0c'

def pyStrip (s : List Char) : List Char :=
  ((s.dropWhile pySpace).reverse.dropWhile pySpace).reverse

/-- `str.index(sub, start)`. -/
def firstIdxFrom (p s : List Char) (k : Nat) : Option Nat :=
  (firstIdx p (s.drop k)).map (· + k)

/-- The body of `find_marker_comment`'s per-comment attempt: the two `in`
guards, the delimiter slicing, `strip()` and `json.loads`; `none` both when a
guard fails and when the `try` block raises. -/
def extractLedger (body : List Char) : Option Ledger :=
  if containsSub MARKER_START body && containsSub MARKER_END body then
    match firstIdx MARKER_START body with
    | none => none
    | some i =>
      let start := i + MARKER_START.length
      match firstIdxFrom MARKER_END body start with
      | none => none
      | some e => jsonLoads (pyStrip ((body.take e).drop start))
  else none

def findMarkerAux : List (List Char) → Option (List Char × Ledger)
  | [] => none
  | c :: rest =>
    match extractLedger c with
    | some d => some (c, d)
    | none => findMarkerAux rest

/-- `find_marker_comment` (`bot_commands.py`): scan the comments newest first
and return the first comment (with its parsed mapping) whose delimited block
parses; malformed or foreign blocks are skipped. -/
def find_marker_comment (comments : List (List Char)) :
    Option (List Char × Ledger) :=
  findMarkerAux comments.reverse

/-! ## Embedding of `.github/scripts/validate_manifest.py` -/

def ICON_MAX_SIZE : Nat := 4096

def ICON_WIDTH : Nat := 32

def ICON_HEIGHT : Nat := 32

def REQUIRED_FIELDS : List (List Char) :=
  [chars "package", chars "name", chars "author", chars "version",
   chars "category", chars "description", chars "url", chars "sha256",
   chars "api_level", chars "permissions", chars "min_os_version"]

/-- A parsed manifest: a JSON object modelled as key to string-or-null
mapping (the script only ever reads string-valued fields, and the
required-field check only tests key presence). -/
abbrev Manifest := List (List Char × Option (List Char))

/-- `manifest.get(k)` followed by a Python truthiness test (`if pkg:` etc.):
`some v` when the key is present with a non-empty string value, `none` when
the key is absent or its value is null or the empty string. -/
def truthyGet (m : Manifest) (k : List Char) : Option (List Char) :=
  match dictGet m k with
  | some (some s) => if s = [] then none else some s
  | _ => none

deriving instance DecidableEq for Except

/-- One changed file of the CR with the outcomes of the external calls made
on it: `fetch` is the raw-content download of the file itself (`raw_url`,
with the `repo.get_contents` fallback folded in), `parse` the `json.loads`
outcome on those bytes, `urlFetch` the download of the manifest's declared
artifact `url` (HTTP status and body, or the raised exception's message). -/
structure FileEnv where
  filename : List Char
  fetch : Except (List Char) (List Char)
  parse : Except (List Char) Manifest
  urlFetch : Except (List Char) (Nat × List Char)
  deriving DecidableEq, Repr

/-- The external world of one validation run: the CR's changed files, the
stable-branch (`main`) content lookup, the digest function (`sha256_bytes`),
the image decoder (PIL: format, width, height), the PR's labels as read at
line 210, and the issue's existing comments. -/
structure Env where
  files : List FileEnv
  mainFetch : List Char → Except Unit (List Char)
  hash : List Char → List Char
  decode : List Char → Except (List Char) (List Char × Nat × Nat)
  labels : List (List Char)
  comments : List (List Char)

def iconPath (pkg : List Char) : List Char :=
  chars "icons/" ++ pkg ++ chars ".png"

/-- The size, decode, format and dimension checks of
`validate_icon_for_package` (lines 97-111). -/
def iconContentCheck (E : Env) (content : List Char) :
    Bool × Option (List Char) :=
  if content.length > ICON_MAX_SIZE then
    (false, some (chars "Icon size exceeds 4096 bytes"))
  else
    match E.decode content with
    | Except.error e => (false, some (chars "Icon image invalid: " ++ e))
    | Except.ok (fmt, w, h) =>
      if fmt ≠ chars "PNG" then (false, some (chars "Icon is not PNG"))
      else if w ≠ ICON_WIDTH ∨ h ≠ ICON_HEIGHT then
        (false, some (chars "Icon dimensions must be 32x32"))
      else (true, none)

/-- `validate_icon_for_package` of `validate_manifest.py`: look for the icon
among the CR's own changed files first; only when absent there, fall back to
the `main` branch copy; then run the content checks. -/
def validate_icon_for_package (E : Env) (pkg : List Char) :
    Bool × Option (List Char) :=
  match E.files.find? (fun f => f.filename == iconPath pkg) with
  | some f =>
    match f.fetch with
    | Except.error e =>
      (false, some (chars "Failed to download icon from PR: " ++ e))
    | Except.ok content => iconContentCheck E content
  | none =>
    match E.mainFetch (iconPath pkg) with
    | Except.error _ =>
      (false, some (chars "Icon not found in PR or main branch"))
    | Except.ok content => iconContentCheck E content

/-! The error lines of the main loop, code point for code point. -/

def readErrMsg (fname e : List Char) : List Char :=
  chars "❌ " ++ fname ++ chars ": failed to read file from PR branch: " ++ e

def jsonErrMsg (fname e : List Char) : List Char :=
  chars "❌ " ++ fname ++ chars ": invalid JSON (" ++ e ++ chars ")"

def missingFieldMsg (fname fl : List Char) : List Char :=
  chars "❌ " ++ fname ++ chars ": missing required field '" ++ fl ++ chars "'"

def iconProblemMsg (pkg reason : List Char) : List Char :=
  chars "❌ manifests/" ++ pkg ++ chars ".json: icon problem: " ++ reason

def pkgMissingMsg (fname : List Char) : List Char :=
  chars "❌ " ++ fname ++ chars ": package field missing, cannot validate icon"

def httpStatusMsg (fname : List Char) (status : Nat) : List Char :=
  chars "❌ " ++ fname ++ chars ": URL returned HTTP " ++ Nat.toDigits 10 status

def shaMismatchMsg (fname declared actual : List Char) : List Char :=
  chars "❌ " ++ fname ++ chars ": sha256 mismatch (expected " ++ declared ++
    chars ", got " ++ actual ++ chars ")"

def dlFailMsg (fname e : List Char) : List Char :=
  chars "❌ " ++ fname ++ chars ": failed to download file: " ++ e

def urlEmptyMsg (fname : List Char) : List Char :=
  chars "❌ " ++ fname ++ chars ": url is empty"

/-- The state threaded through the `for mf in manifests_files` loop: the
accumulated error lines, the module-global `validation_success` flag, and the
`current_hashes` dict. -/
structure LoopAcc where
  errors : List (List Char)
  success : Bool
  hashes : List (List Char × List Char)
  deriving DecidableEq, Repr

/-- Lines 174-177: every absent required field appends its own error. -/
def fieldSection (f : FileEnv) (m : Manifest) (acc : LoopAcc) : LoopAcc :=
  REQUIRED_FIELDS.foldl
    (fun a fl =>
      match dictGet m fl with
      | some _ => a
      | none =>
        { a with errors := a.errors ++ [missingFieldMsg f.filename fl],
                 success := false })
    acc

/-- Lines 183-190: the icon check, or the distinct error when `package` is
missing or falsy.  A `False` verdict always carries a reason; Python would
interpolate a hypothetical `None` as the text `None`. -/
def iconSection (E : Env) (f : FileEnv) (m : Manifest) (acc : LoopAcc) : LoopAcc :=
  match truthyGet m (chars "package") with
  | some pkg =>
    match validate_icon_for_package E pkg with
    | (true, _) => acc
    | (false, reason) =>
      { acc with
          errors := acc.errors ++ [iconProblemMsg pkg (reason.getD (chars "None"))],
          success := false }
  | none =>
    { acc with errors := acc.errors ++ [pkgMissingMsg f.filename],
               success := false }

/-- Lines 192-208: the artifact URL check. -/
def urlSection (E : Env) (f : FileEnv) (m : Manifest) (acc : LoopAcc) : LoopAcc :=
  match truthyGet m (chars "url") with
  | some _ =>
    match f.urlFetch with
    | Except.error e =>
      { acc with errors := acc.errors ++ [dlFailMsg f.filename e],
                 success := false }
    | Except.ok (status, content) =>
      if status ≠ 200 then
        { acc with errors := acc.errors ++ [httpStatusMsg f.filename status],
                   success := false }
      else
        match truthyGet m (chars "sha256") with
        | some declared =>
          if E.hash content ≠ declared then
            { acc with
                errors := acc.errors ++
                  [shaMismatchMsg f.filename declared (E.hash content)],
                success := false }
          else acc
        | none => acc
  | none =>
    { acc with errors := acc.errors ++ [urlEmptyMsg f.filename],
               success := false }

/-- One iteration of the `for mf in manifests_files` loop (lines 146-208):
read the file (error ends the iteration), hash it into `current_hashes`
before parsing, parse it (error ends the iteration), then the field, icon and
URL sections. -/
def processFile (E : Env) (acc : LoopAcc) (f : FileEnv) : LoopAcc :=
  match f.fetch with
  | Except.error e =>
    { acc with errors := acc.errors ++ [readErrMsg f.filename e],
               success := false }
  | Except.ok fileBytes =>
    let acc1 : LoopAcc :=
      { acc with hashes := dictInsert acc.hashes f.filename (E.hash fileBytes) }
    match f.parse with
    | Except.error e =>
      { acc1 with errors := acc1.errors ++ [jsonErrMsg f.filename e],
                  success := false }
    | Except.ok m => urlSection E f m (iconSection E f m (fieldSection f m acc1))

/-- Line 136: the changed files restricted to manifest paths. -/
def manifestsFiles (E : Env) : List FileEnv :=
  E.files.filter fun f =>
    (chars "manifests/").isPrefixOf f.filename &&
      (chars ".json").isSuffixOf f.filename

/-- `"\n".join(errors)`. -/
def joinNl : List (List Char) → List Char
  | [] => []
  | [e] => e
  | e :: rest => e ++ '\n' :: joinNl rest

def failureReport (errors : List (List Char)) : List Char :=
  chars "Manifest validation failed:\n\n" ++ joinNl errors ++
    chars "\n\nFix the issues and then comment `@bot check` to request a new validation."

def noManifestsMsg : List Char := chars "No manifests found in this PR."

def validationOkMsg : List Char :=
  chars "✅ Manifest validation successful.\nThe manifest(s) are now locked for moderator review.\n\nModerator commands:\n- `@bot allow` — approve the PR\n- `@bot deny` — reject the PR"

/-- An observable platform effect of one validation run. -/
inductive VAction where
  | comment (body : List Char)
  | removeLabel (lab : List Char)
  | addLabel (lab : List Char)
  | deleteComment (body : List Char)
  deriving DecidableEq, Repr

/-- Result of one run of `main` of `validate_manifest.py`: the effects
performed, and the final error list, `validation_success` flag and
`current_hashes` dict. -/
structure VResult where
  actions : List VAction
  errors : List (List Char)
  success : Bool
  hashes : List (List Char × List Char)
  deriving DecidableEq, Repr

/-- `main` of `validate_manifest.py` from line 135 on (the PR context being
loaded): filter the changed files, handle the no-manifest case, run the
per-file loop, then the failure branch (lines 212-238: label demotion, the
consolidated report, ledger deletion) or the success branch (lines 241-265:
label promotion, ledger publication via `post_marker_comment`, confirmation).
The publish itself is modelled as succeeding (its `except` arm at line 254 is
an external `create_comment` failure). -/
def vrun (E : Env) : VResult :=
  let manifests := manifestsFiles E
  if manifests = [] then
    { actions := [VAction.comment noManifestsMsg],
      errors := [], success := false, hashes := [] }
  else
    let acc := manifests.foldl (processFile E) ⟨[], true, []⟩
    if acc.success then
      { actions :=
          (if chars "Invalid manifest" ∈ E.labels then
            [VAction.removeLabel (chars "Invalid manifest")] else []) ++
          (if chars "Under review" ∈ E.labels then [] else
            [VAction.addLabel (chars "Under review")]) ++
          (E.comments.filter (fun c => containsSub MARKER_START c)).map
            VAction.deleteComment ++
          [VAction.comment
            (markerBody (acc.hashes.map (fun kv => (kv.1, some kv.2)))),
           VAction.comment validationOkMsg],
        errors := acc.errors, success := acc.success, hashes := acc.hashes }
    else
      { actions :=
          (if chars "Under review" ∈ E.labels then
            [VAction.removeLabel (chars "Under review")] else []) ++
          (if chars "Invalid manifest" ∈ E.labels then [] else
            [VAction.addLabel (chars "Invalid manifest")]) ++
          [VAction.comment (failureReport acc.errors)] ++
          (E.comments.filter (fun c => containsSub MARKER_START c)).map
            VAction.deleteComment,
        errors := acc.errors, success := acc.success, hashes := acc.hashes }

/-! Specification view of the per-file loop: the error lines one file
contributes and the hash-dict update it performs, with the lemmas relating
them to `processFile` and to `vrun`. -/

def fieldErrsOf (f : FileEnv) (m : Manifest) : List (List Char) :=
  (REQUIRED_FIELDS.filter fun fl => (dictGet m fl).isNone).map
    (missingFieldMsg f.filename)

def iconErrsOf (E : Env) (f : FileEnv) (m : Manifest) : List (List Char) :=
  match truthyGet m (chars "package") with
  | some pkg =>
    match validate_icon_for_package E pkg with
    | (true, _) => []
    | (false, reason) => [iconProblemMsg pkg (reason.getD (chars "None"))]
  | none => [pkgMissingMsg f.filename]

def urlErrsOf (E : Env) (f : FileEnv) (m : Manifest) : List (List Char) :=
  match truthyGet m (chars "url") with
  | some _ =>
    match f.urlFetch with
    | Except.error e => [dlFailMsg f.filename e]
    | Except.ok (status, content) =>
      if status ≠ 200 then [httpStatusMsg f.filename status]
      else
        match truthyGet m (chars "sha256") with
        | some declared =>
          if E.hash content ≠ declared then
            [shaMismatchMsg f.filename declared (E.hash content)]
          else []
        | none => []
  | none => [urlEmptyMsg f.filename]

def fileErrs (E : Env) (f : FileEnv) : List (List Char) :=
  match f.fetch with
  | Except.error e => [readErrMsg f.filename e]
  | Except.ok _ =>
    match f.parse with
    | Except.error e => [jsonErrMsg f.filename e]
    | Except.ok m => fieldErrsOf f m ++ iconErrsOf E f m ++ urlErrsOf E f m

def hashUpd (E : Env) (hs : List (List Char × List Char)) (f : FileEnv) :
    List (List Char × List Char) :=
  match f.fetch with
  | Except.ok b => dictInsert hs f.filename (E.hash b)
  | Except.error _ => hs

theorem listIsEmptyAppend (l m : List (List Char)) :
    (l ++ m).isEmpty = (l.isEmpty && m.isEmpty) := by
  cases l <;> simp [List.isEmpty]

theorem fieldSection_spec (f : FileEnv) (m : Manifest) (acc : LoopAcc) :
    fieldSection f m acc =
      { acc with errors := acc.errors ++ fieldErrsOf f m,
                 success := acc.success && (fieldErrsOf f m).isEmpty } := by
  unfold fieldSection fieldErrsOf
  generalize REQUIRED_FIELDS = fls
  induction fls generalizing acc with
  | nil => simp
  | cons fl rest ih =>
    simp only [List.foldl_cons, List.filter_cons]
    cases hg : dictGet m fl with
    | some v =>
      simp only [hg, Option.isNone_some, Bool.false_eq_true, if_false, ite_false]
      exact ih acc
    | none =>
      simp only [hg, Option.isNone_none, if_true, ite_true]
      rw [ih]
      simp [List.append_assoc]

theorem iconSection_spec (E : Env) (f : FileEnv) (m : Manifest) (acc : LoopAcc) :
    iconSection E f m acc =
      { acc with errors := acc.errors ++ iconErrsOf E f m,
                 success := acc.success && (iconErrsOf E f m).isEmpty } := by
  unfold iconSection iconErrsOf
  cases truthyGet m (chars "package") with
  | none => simp
  | some pkg =>
    cases hv : validate_icon_for_package E pkg with
    | mk ok reason => cases ok <;> simp [hv]

theorem urlSection_spec (E : Env) (f : FileEnv) (m : Manifest) (acc : LoopAcc) :
    urlSection E f m acc =
      { acc with errors := acc.errors ++ urlErrsOf E f m,
                 success := acc.success && (urlErrsOf E f m).isEmpty } := by
  unfold urlSection urlErrsOf
  cases truthyGet m (chars "url") with
  | none => simp
  | some u =>
    cases f.urlFetch with
    | error e => simp
    | ok sc =>
      obtain ⟨status, content⟩ := sc
      by_cases hst : status ≠ 200
      · simp [hst]
      · simp only [hst, if_false, ite_false]
        cases truthyGet m (chars "sha256") with
        | none => simp
        | some declared =>
          by_cases hsh : E.hash content ≠ declared
          · simp [hsh]
          · simp [hsh]

theorem processFile_spec (E : Env) (acc : LoopAcc) (f : FileEnv) :
    processFile E acc f =
      { errors := acc.errors ++ fileErrs E f,
        success := acc.success && (fileErrs E f).isEmpty,
        hashes := hashUpd E acc.hashes f } := by
  unfold processFile fileErrs hashUpd
  cases f.fetch with
  | error e => simp
  | ok b =>
    cases f.parse with
    | error e => simp
    | ok m =>
      dsimp only
      rw [fieldSection_spec, iconSection_spec, urlSection_spec]
      simp [List.append_assoc, listIsEmptyAppend, Bool.and_assoc]

theorem vfold_spec (E : Env) (fs : List FileEnv) :
    ∀ acc : LoopAcc,
      fs.foldl (processFile E) acc =
        { errors := acc.errors ++ (fs.map (fileErrs E)).flatten,
          success := acc.success && (fs.map (fileErrs E)).flatten.isEmpty,
          hashes := fs.foldl (hashUpd E) acc.hashes } := by
  induction fs with
  | nil => intro acc; simp
  | cons f rest ih =>
    intro acc
    simp only [List.foldl_cons, List.map_cons, List.flatten_cons]
    rw [processFile_spec, ih]
    simp [List.append_assoc, listIsEmptyAppend, Bool.and_assoc]

/-- The loop state after the whole per-file loop. -/
def vaccOf (E : Env) : LoopAcc :=
  (manifestsFiles E).foldl (processFile E) ⟨[], true, []⟩

theorem vrun_eq_branches (E : Env) (hne : manifestsFiles E ≠ []) :
    vrun E =
      if (vaccOf E).success then
        { actions :=
            (if chars "Invalid manifest" ∈ E.labels then
              [VAction.removeLabel (chars "Invalid manifest")] else []) ++
            (if chars "Under review" ∈ E.labels then [] else
              [VAction.addLabel (chars "Under review")]) ++
            (E.comments.filter (fun c => containsSub MARKER_START c)).map
              VAction.deleteComment ++
            [VAction.comment
              (markerBody ((vaccOf E).hashes.map (fun kv => (kv.1, some kv.2)))),
             VAction.comment validationOkMsg],
          errors := (vaccOf E).errors, success := (vaccOf E).success,
          hashes := (vaccOf E).hashes }
      else
        { actions :=
            (if chars "Under review" ∈ E.labels then
              [VAction.removeLabel (chars "Under review")] else []) ++
            (if chars "Invalid manifest" ∈ E.labels then [] else
              [VAction.addLabel (chars "Invalid manifest")]) ++
            [VAction.comment (failureReport (vaccOf E).errors)] ++
            (E.comments.filter (fun c => containsSub MARKER_START c)).map
              VAction.deleteComment,
          errors := (vaccOf E).errors, success := (vaccOf E).success,
          hashes := (vaccOf E).hashes } := by
  unfold vrun vaccOf
  simp only [hne, if_false, ite_false]

theorem vrun_fail_eq (E : Env) (hne : manifestsFiles E ≠ [])
    (hs : (vaccOf E).success = false) :
    vrun E =
      { actions :=
          (if chars "Under review" ∈ E.labels then
            [VAction.removeLabel (chars "Under review")] else []) ++
          (if chars "Invalid manifest" ∈ E.labels then [] else
            [VAction.addLabel (chars "Invalid manifest")]) ++
          [VAction.comment (failureReport (vaccOf E).errors)] ++
          (E.comments.filter (fun c => containsSub MARKER_START c)).map
            VAction.deleteComment,
        errors := (vaccOf E).errors, success := (vaccOf E).success,
        hashes := (vaccOf E).hashes } := by
  rw [vrun_eq_branches E hne, hs]
  simp only [Bool.false_eq_true, if_false, ite_false]

theorem vrun_success_eq (E : Env) (hne : manifestsFiles E ≠ [])
    (hs : (vaccOf E).success = true) :
    vrun E =
      { actions :=
          (if chars "Invalid manifest" ∈ E.labels then
            [VAction.removeLabel (chars "Invalid manifest")] else []) ++
          (if chars "Under review" ∈ E.labels then [] else
            [VAction.addLabel (chars "Under review")]) ++
          (E.comments.filter (fun c => containsSub MARKER_START c)).map
            VAction.deleteComment ++
          [VAction.comment
            (markerBody ((vaccOf E).hashes.map (fun kv => (kv.1, some kv.2)))),
           VAction.comment validationOkMsg],
        errors := (vaccOf E).errors, success := (vaccOf E).success,
        hashes := (vaccOf E).hashes } := by
  rw [vrun_eq_branches E hne, hs]
  simp only [if_true, ite_true]

/-- On a run that found manifest files, the reported errors, the success flag
and the hash dict are those of the per-file loop. -/
theorem vrun_core (E : Env) (hne : manifestsFiles E ≠ []) :
    (vrun E).errors = (vaccOf E).errors ∧
    (vrun E).success = (vaccOf E).success ∧
    (vrun E).hashes = (vaccOf E).hashes := by
  cases hs : (vaccOf E).success
  · rw [vrun_fail_eq E hne hs]; exact ⟨rfl, hs, rfl⟩
  · rw [vrun_success_eq E hne hs]; exact ⟨rfl, hs, rfl⟩

theorem vrun_hashes (E : Env) :
    (vrun E).hashes = (manifestsFiles E).foldl (hashUpd E) [] := by
  by_cases hne : manifestsFiles E = []
  · unfold vrun
    simp [hne]
  · rw [(vrun_core E hne).2.2]
    unfold vaccOf
    rw [vfold_spec]

theorem vrun_errors_eq (E : Env) (hne : manifestsFiles E ≠ []) :
    (vrun E).errors = ((manifestsFiles E).map (fileErrs E)).flatten := by
  rw [(vrun_core E hne).1]
  unfold vaccOf
  rw [vfold_spec]
  simp

theorem vrun_success_eq_isEmpty (E : Env) (hne : manifestsFiles E ≠ []) :
    (vrun E).success = ((manifestsFiles E).map (fileErrs E)).flatten.isEmpty := by
  rw [(vrun_core E hne).2.1]
  unfold vaccOf
  rw [vfold_spec]
  simp

/-- C10: a validation run whose changed files contain no manifest path posts
exactly the single "No manifests found" comment and performs no other effect:
no label is added or removed and no ledger annotation is deleted or
published; the run is nonetheless flagged unsuccessful, with an empty error
list and an empty hash dict. -/
theorem C10_no_manifests_frame (E : Env) (h : manifestsFiles E = []) :
    (vrun E).actions = [VAction.comment noManifestsMsg] ∧
    (vrun E).success = false ∧
    (vrun E).errors = [] ∧ (vrun E).hashes = [] := by
  unfold vrun
  simp [h]

def envC10 : Env :=
  { files := [{ filename := chars "README.md", fetch := Except.ok [],
                parse := Except.error [], urlFetch := Except.error [] }],
    mainFetch := fun _ => Except.error (), hash := fun _ => [],
    decode := fun _ => Except.error [], labels := [chars "Under review"],
    comments := [chars "an old comment"] }

/-- Witness for `C10_no_manifests_frame`: one changed non-manifest file. -/
theorem C10_no_manifests_frame_witness :
    (vrun envC10).actions = [VAction.comment noManifestsMsg] ∧
    (vrun envC10).success = false ∧
    (vrun envC10).errors = [] ∧ (vrun envC10).hashes = [] :=
  C10_no_manifests_frame envC10 (by decide)

def isLabelAct : VAction → Bool
  | VAction.removeLabel _ => true
  | VAction.addLabel _ => true
  | _ => false

theorem filter_label_map_delete (l : List (List Char)) :
    (l.map VAction.deleteComment).filter isLabelAct = [] := by
  induction l with
  | nil => rfl
  | cons c t ih => simp [isLabelAct, ih]

def envC4 : Env :=
  { files := [{ filename := chars "manifests/app.json",
                fetch := Except.error (chars "boom"),
                parse := Except.error [], urlFetch := Except.error [] }],
    mainFetch := fun _ => Except.error (), hash := fun _ => [],
    decode := fun _ => Except.error [], labels := [chars "Approved"],
    comments := [] }

/-- C4 counterexample: a failing validation run on a PR currently labelled
`Approved` adds `Invalid manifest` but never removes `Approved`: the failure
branch demotes only `Under review`, so the prior approval label survives. -/
theorem C4_counterexample :
    (vrun envC4).success = false ∧
    chars "Approved" ∈ envC4.labels ∧
    VAction.removeLabel (chars "Approved") ∉ (vrun envC4).actions ∧
    VAction.addLabel (chars "Invalid manifest") ∈ (vrun envC4).actions :=
  ⟨by decide, by decide, by decide, by decide⟩

/-- C4 (amended): on a failed validation run, the label transition removes
`Under review` when present and adds `Invalid manifest` when absent, in that
order, and does nothing else to labels; in particular `Approved` and
`Rejected` are never removed and survive the failure. -/
theorem C4_failure_label_transition (E : Env) (hne : manifestsFiles E ≠ [])
    (hfail : (vrun E).success = false) :
    (vrun E).actions.filter isLabelAct =
      (if chars "Under review" ∈ E.labels then
        [VAction.removeLabel (chars "Under review")] else []) ++
      (if chars "Invalid manifest" ∈ E.labels then [] else
        [VAction.addLabel (chars "Invalid manifest")]) ∧
    VAction.removeLabel (chars "Approved") ∉ (vrun E).actions ∧
    VAction.removeLabel (chars "Rejected") ∉ (vrun E).actions := by
  have hs : (vaccOf E).success = false := by
    have hc := (vrun_core E hne).2.1
    rw [← hc]
    exact hfail
  rw [vrun_fail_eq E hne hs]
  dsimp only
  refine ⟨?_, ?_, ?_⟩
  · by_cases hur : chars "Under review" ∈ E.labels <;>
      by_cases him : chars "Invalid manifest" ∈ E.labels <;>
      simp [hur, him, List.filter_append, filter_label_map_delete, isLabelAct,
        List.filter]
  · intro hmem
    rcases List.mem_append.mp hmem with hmem | hmem
    · rcases List.mem_append.mp hmem with hmem | hmem
      · rcases List.mem_append.mp hmem with hmem | hmem
        · split at hmem <;> simp only [List.mem_cons, List.not_mem_nil,
            or_false] at hmem
          injection hmem with h2
          exact absurd h2 (by decide)
        · split at hmem <;> simp only [List.mem_cons, List.not_mem_nil,
            or_false] at hmem
          exact VAction.noConfusion hmem
      · simp only [List.mem_cons, List.not_mem_nil, or_false] at hmem
        exact VAction.noConfusion hmem
    · rcases List.mem_map.mp hmem with ⟨c, -, hc2⟩
      exact VAction.noConfusion hc2.symm
  · intro hmem
    rcases List.mem_append.mp hmem with hmem | hmem
    · rcases List.mem_append.mp hmem with hmem | hmem
      · rcases List.mem_append.mp hmem with hmem | hmem
        · split at hmem <;> simp only [List.mem_cons, List.not_mem_nil,
            or_false] at hmem
          injection hmem with h2
          exact absurd h2 (by decide)
        · split at hmem <;> simp only [List.mem_cons, List.not_mem_nil,
            or_false] at hmem
          exact VAction.noConfusion hmem
      · simp only [List.mem_cons, List.not_mem_nil, or_false] at hmem
        exact VAction.noConfusion hmem
    · rcases List.mem_map.mp hmem with ⟨c, -, hc2⟩
      exact VAction.noConfusion hc2.symm

/-- Witness for `C4_failure_label_transition` at the concrete failing run. -/
theorem C4_failure_label_transition_witness :
    (vrun envC4).actions.filter isLabelAct =
      [VAction.addLabel (chars "Invalid manifest")] := by
  have h := C4_failure_label_transition envC4 (by decide) (by decide)
  rw [h.1]
  decide

def envC5 : Env :=
  { files := [], mainFetch := fun _ => Except.error (), hash := fun _ => [],
    decode := fun _ => Except.error [], labels := [], comments := [] }

/-- C5 counterexample: a run with no changed manifest files accumulates zero
errors, yet its outcome is flagged unsuccessful — refuting "success iff zero
errors accumulated" as a property of every run. -/
theorem C5_counterexample :
    (vrun envC5).errors = [] ∧ (vrun envC5).success = false :=
  ⟨by decide, by decide⟩

theorem fileErr_mem_vrun {E : Env} {f : FileEnv} {msg : List Char}
    (hf : f ∈ manifestsFiles E) (hmsg : msg ∈ fileErrs E f) :
    msg ∈ (vrun E).errors := by
  have hne : manifestsFiles E ≠ [] := by
    intro h
    rw [h] at hf
    exact List.not_mem_nil f hf
  rw [vrun_errors_eq E hne]
  exact List.mem_flatten.mpr ⟨fileErrs E f, List.mem_map_of_mem _ hf, hmsg⟩

/-- C5 (amended): on a run that found at least one changed manifest file the
outcome is success iff zero error lines were accumulated, and every missing
required field of every parsed manifest contributes its own error line (the
loop does not stop at the first), each failing the run; the consolidated
report posted on failure is built from the full error list.  A run with no
manifest files is instead unsuccessful with zero errors
(`C5_counterexample`). -/
theorem C5_outcome (E : Env) (hne : manifestsFiles E ≠ []) :
    ((vrun E).success = true ↔ (vrun E).errors = []) ∧
    (∀ f ∈ manifestsFiles E, ∀ b m, f.fetch = Except.ok b →
      f.parse = Except.ok m →
      ∀ fl ∈ REQUIRED_FIELDS, dictGet m fl = none →
        missingFieldMsg f.filename fl ∈ (vrun E).errors ∧
          (vrun E).success = false) ∧
    ((vrun E).success = false →
      VAction.comment (failureReport (vrun E).errors) ∈ (vrun E).actions) := by
  have hiff : (vrun E).success = true ↔ (vrun E).errors = [] := by
    rw [vrun_success_eq_isEmpty E hne, vrun_errors_eq E hne]
    exact List.isEmpty_iff
  refine ⟨hiff, ?_, ?_⟩
  · intro f hf b m hb hm fl hfl hmiss
    have hmem : missingFieldMsg f.filename fl ∈ fileErrs E f := by
      unfold fileErrs
      rw [hb, hm]
      dsimp only
      apply List.mem_append.mpr
      left
      apply List.mem_append.mpr
      left
      unfold fieldErrsOf
      exact List.mem_map_of_mem _ (List.mem_filter.mpr ⟨hfl, by simp [hmiss]⟩)
    have hin := fileErr_mem_vrun hf hmem
    refine ⟨hin, ?_⟩
    cases hsv : (vrun E).success
    · rfl
    · exfalso
      have he := hiff.mp hsv
      rw [he] at hin
      exact List.not_mem_nil _ hin
  · intro hfail
    have hs : (vaccOf E).success = false := by
      have hc := (vrun_core E hne).2.1
      rw [← hc]
      exact hfail
    rw [vrun_fail_eq E hne hs]
    simp [List.mem_append]

/-- Witness for `C5_outcome`: a concrete run over one manifest whose parsed
object misses the `author` field. -/
def envC5w : Env :=
  { files := [{ filename := chars "manifests/app.json",
                fetch := Except.ok (chars "{}"),
                parse := Except.ok
                  [(chars "package", some (chars "app")),
                   (chars "name", some (chars "App")),
                   (chars "version", some (chars "1")),
                   (chars "category", some (chars "c")),
                   (chars "description", some (chars "d")),
                   (chars "url", some (chars "http://u")),
                   (chars "sha256", some (chars "e3b0")),
                   (chars "api_level", some (chars "1")),
                   (chars "permissions", some (chars "")),
                   (chars "min_os_version", some (chars "1"))],
                urlFetch := Except.ok (200, chars "B") }],
    mainFetch := fun _ => Except.error (), hash := fun _ => chars "e3b0",
    decode := fun _ => Except.ok (chars "PNG", 32, 32),
    labels := [], comments := [] }

theorem C5_outcome_witness :
    missingFieldMsg (chars "manifests/app.json") (chars "author") ∈
      (vrun envC5w).errors ∧ (vrun envC5w).success = false :=
  (C5_outcome envC5w (by decide)).2.1
    { filename := chars "manifests/app.json",
      fetch := Except.ok (chars "{}"),
      parse := Except.ok
        [(chars "package", some (chars "app")),
         (chars "name", some (chars "App")),
         (chars "version", some (chars "1")),
         (chars "category", some (chars "c")),
         (chars "description", some (chars "d")),
         (chars "url", some (chars "http://u")),
         (chars "sha256", some (chars "e3b0")),
         (chars "api_level", some (chars "1")),
         (chars "permissions", some (chars "")),
         (chars "min_os_version", some (chars "1"))],
      urlFetch := Except.ok (200, chars "B") }
    (by decide) (chars "{}")
    [(chars "package", some (chars "app")),
     (chars "name", some (chars "App")),
     (chars "version", some (chars "1")),
     (chars "category", some (chars "c")),
     (chars "description", some (chars "d")),
     (chars "url", some (chars "http://u")),
     (chars "sha256", some (chars "e3b0")),
     (chars "api_level", some (chars "1")),
     (chars "permissions", some (chars "")),
     (chars "min_os_version", some (chars "1"))]
    rfl rfl (chars "author") (by decide) (by decide)

theorem dictGet_dictInsert {β : Type} (d : List (List Char × β))
    (k q : List Char) (v : β) :
    dictGet (dictInsert d k v) q = if k = q then some v else dictGet d q := by
  induction d with
  | nil =>
    by_cases h : k = q <;> simp [dictInsert, dictGet, h]
  | cons kv t ih =>
    obtain ⟨k', v'⟩ := kv
    by_cases he : k' = k
    · subst he
      have hins : dictInsert ((k', v') :: t) k' v = (k', v) :: t := by
        simp [dictInsert]
      rw [hins]
      by_cases hq : k' = q <;> simp [dictGet, hq]
    · have hins : dictInsert ((k', v') :: t) k v = (k', v') :: dictInsert t k v := by
        simp [dictInsert, he]
      rw [hins]
      by_cases hq2 : k' = q
      · subst hq2
        have hq : ¬ k = k' := fun h => he h.symm
        simp [dictGet, hq]
      · simp [dictGet, hq2, ih]

theorem mem_dictInsert_keys {β : Type} (d : List (List Char × β))
    (k : List Char) (v : β) (q : List Char) :
    (q ∈ (dictInsert d k v).map Prod.fst) ↔
      q ∈ d.map Prod.fst ∨ q = k := by
  induction d with
  | nil => simp [dictInsert]
  | cons kv t ih =>
    obtain ⟨k', v'⟩ := kv
    by_cases he : k' = k
    · subst he
      have hins : dictInsert ((k', v') :: t) k' v = (k', v) :: t := by
        simp [dictInsert]
      rw [hins]
      simp only [List.map_cons, List.mem_cons]
      tauto
    · have hins : dictInsert ((k', v') :: t) k v = (k', v') :: dictInsert t k v := by
        simp [dictInsert, he]
      rw [hins]
      simp only [List.map_cons, List.mem_cons, ih]
      tauto

theorem dictInsert_keys_nodup {β : Type} {d : List (List Char × β)}
    (h : (d.map Prod.fst).Nodup) (k : List Char) (v : β) :
    ((dictInsert d k v).map Prod.fst).Nodup := by
  induction d with
  | nil => simp [dictInsert]
  | cons kv t ih =>
    obtain ⟨k', v'⟩ := kv
    simp only [List.map_cons, List.nodup_cons] at h
    by_cases he : k' = k
    · subst he
      have hins : dictInsert ((k', v') :: t) k' v = (k', v) :: t := by
        simp [dictInsert]
      rw [hins]
      simp only [List.map_cons, List.nodup_cons]
      exact ⟨h.1, h.2⟩
    · have hins : dictInsert ((k', v') :: t) k v = (k', v') :: dictInsert t k v := by
        simp [dictInsert, he]
      rw [hins]
      simp only [List.map_cons, List.nodup_cons]
      refine ⟨?_, ih h.2⟩
      intro hmem
      rcases (mem_dictInsert_keys t k v k').mp hmem with hin | heq
      · exact h.1 hin
      · exact he heq

def isOkB {α β : Type} : Except α β → Bool
  | Except.ok _ => true
  | Except.error _ => false

theorem dictGet_foldl_hashUpd (E : Env) (fs : List FileEnv) :
    ∀ (hs : List (List Char × List Char)) (n : List Char),
      (dictGet (fs.foldl (hashUpd E) hs) n).isSome =
        ((dictGet hs n).isSome ||
          fs.any (fun f => f.filename == n && isOkB f.fetch)) := by
  induction fs with
  | nil => intro hs n; simp
  | cons f rest ih =>
    intro hs n
    simp only [List.foldl_cons, List.any_cons]
    rw [ih]
    have hstep : (dictGet (hashUpd E hs f) n).isSome =
        ((dictGet hs n).isSome || (f.filename == n && isOkB f.fetch)) := by
      unfold hashUpd
      cases hfc : f.fetch with
      | error e => simp [isOkB]
      | ok b =>
        rw [dictGet_dictInsert]
        by_cases hn : f.filename = n
        · simp [hn, isOkB]
        · simp [hn, isOkB]
    rw [hstep, Bool.or_assoc]

def envC6 : Env :=
  { files := [{ filename := chars "manifests/a.json",
                fetch := Except.error (chars "unreachable"),
                parse := Except.error [], urlFetch := Except.error [] }],
    mainFetch := fun _ => Except.error (), hash := fun _ => [],
    decode := fun _ => Except.error [], labels := [], comments := [] }

/-- C6 counterexample: the run processes one changed manifest file whose
content could not be read, and its hash accumulation ends up **empty**: the
unreadable file is omitted, not mapped to a null sentinel.  The null-sentinel
mapping exists only in the dispatcher's `compute_current_hashes` helper,
shown on the same input. -/
theorem C6_counterexample :
    (manifestsFiles envC6).length = 1 ∧
    (vrun envC6).hashes = [] ∧
    compute_current_hashes (fun _ => [])
        [(chars "manifests/a.json", Except.error (chars "unreachable"))] =
      [(chars "manifests/a.json", none)] :=
  ⟨by decide, by decide, by decide⟩

/-- C6 (amended): the run's hash dict holds at most one entry per path; every
readable changed manifest file has an entry (hashed before parsing, so pass
or fail does not matter), and a path all of whose changed-file records are
unreadable has **no** entry — the unreadable file is omitted rather than
mapped to a null sentinel. -/
theorem C6_hash_entries (E : Env) :
    ((vrun E).hashes.map Prod.fst).Nodup ∧
    (∀ f ∈ manifestsFiles E, ∀ b, f.fetch = Except.ok b →
      (dictGet (vrun E).hashes f.filename).isSome = true) ∧
    (∀ f ∈ manifestsFiles E,
      (∀ g ∈ manifestsFiles E, g.filename = f.filename →
        isOkB g.fetch = false) →
      dictGet (vrun E).hashes f.filename = none) := by
  rw [vrun_hashes E]
  refine ⟨?_, ?_, ?_⟩
  · have hgen : ∀ (fs : List FileEnv) (hs : List (List Char × List Char)),
        (hs.map Prod.fst).Nodup →
        ((fs.foldl (hashUpd E) hs).map Prod.fst).Nodup := by
      intro fs
      induction fs with
      | nil => intro hs h; exact h
      | cons f rest ih =>
        intro hs h
        simp only [List.foldl_cons]
        apply ih
        unfold hashUpd
        cases f.fetch with
        | ok b => exact dictInsert_keys_nodup h _ _
        | error e => exact h
    exact hgen _ [] (by simp)
  · intro f hf b hb
    rw [dictGet_foldl_hashUpd]
    refine Bool.or_eq_true_iff.mpr (Or.inr ?_)
    exact List.any_eq_true.mpr ⟨f, hf, by simp [hb, isOkB]⟩
  · intro f hf hnone
    have h := dictGet_foldl_hashUpd E (manifestsFiles E) [] f.filename
    have hany : ((manifestsFiles E).any
        (fun g => g.filename == f.filename && isOkB g.fetch)) = false := by
      cases hcase : (manifestsFiles E).any
          (fun g => g.filename == f.filename && isOkB g.fetch)
      · rfl
      · exfalso
        rcases List.any_eq_true.mp hcase with ⟨g, hg, hgp⟩
        rcases Bool.and_eq_true_iff.mp hgp with ⟨hgn, hgo⟩
        have : g.filename = f.filename := by
          simpa using hgn
        rw [hnone g hg this] at hgo
        cases hgo
    rw [hany] at h
    simp only [dictGet, Option.isSome_none, Bool.false_or] at h
    cases hd : dictGet ((manifestsFiles E).foldl (hashUpd E) []) f.filename
    · rfl
    · rw [hd] at h
      cases h

/-- Witness for `C6_hash_entries`: the unreadable file of `envC6` has no
entry. -/
theorem C6_hash_entries_witness :
    dictGet (vrun envC6).hashes (chars "manifests/a.json") = none :=
  (C6_hash_entries envC6).2.2
    { filename := chars "manifests/a.json",
      fetch := Except.error (chars "unreachable"),
      parse := Except.error [], urlFetch := Except.error [] }
    (by decide) (by decide)

theorem urlErr_mem_fileErrs {E : Env} {f : FileEnv} {m : Manifest}
    {b msg : List Char}
    (hb : f.fetch = Except.ok b) (hm : f.parse = Except.ok m)
    (hmsg : msg ∈ urlErrsOf E f m) : msg ∈ fileErrs E f := by
  unfold fileErrs
  rw [hb, hm]
  dsimp only
  exact List.mem_append.mpr (Or.inr hmsg)

def manifestC8 : Manifest :=
  [(chars "package", some (chars "app")),
   (chars "name", some (chars "App")),
   (chars "author", some (chars "a")),
   (chars "version", some (chars "1")),
   (chars "category", some (chars "c")),
   (chars "description", some (chars "d")),
   (chars "url", some (chars "http://u")),
   (chars "sha256", some (chars "dd")),
   (chars "api_level", some (chars "1")),
   (chars "permissions", some (chars "p")),
   (chars "min_os_version", some (chars "1"))]

def envC8 : Env :=
  { files := [{ filename := chars "manifests/app.json",
                fetch := Except.ok (chars "{}"),
                parse := Except.ok manifestC8,
                urlFetch := Except.ok (204, chars "B") },
              { filename := chars "icons/app.png",
                fetch := Except.ok (chars "I"),
                parse := Except.error [], urlFetch := Except.error [] }],
    mainFetch := fun _ => Except.error (),
    hash := fun _ => chars "dd",
    decode := fun _ => Except.ok (chars "PNG", 32, 32),
    labels := [], comments := [] }

/-- C8 counterexample: the artifact URL responds with HTTP 204 — a 2xx
status — and the digest of the fetched body equals the declared `sha256`,
yet the run records an error and fails: the code rejects every status other
than exactly 200, not merely non-2xx statuses. -/
theorem C8_counterexample :
    (vrun envC8).errors = [httpStatusMsg (chars "manifests/app.json") 204] ∧
    (vrun envC8).success = false :=
  ⟨by decide, by decide⟩

/-- C8 (amended): per manifest file of a run, a falsy (absent, null or empty)
`url` is itself an error; with a truthy `url`, an unreachable fetch records
the download error, a status other than exactly 200 (not merely non-2xx)
records the HTTP error, and at status 200 with a truthy declared `sha256` a
digest mismatch records an error naming both the declared and the actual
value, the comparison being made only when both `url` and `sha256` are
truthy; when the fetch returns 200 and any declared digest matches, no URL
error is recorded for that file. -/
theorem C8_url_artifact_checks (E : Env) (f : FileEnv)
    (hf : f ∈ manifestsFiles E) (b : List Char) (m : Manifest)
    (hb : f.fetch = Except.ok b) (hm : f.parse = Except.ok m) :
    (truthyGet m (chars "url") = none →
      urlEmptyMsg f.filename ∈ (vrun E).errors) ∧
    (∀ u, truthyGet m (chars "url") = some u →
      (∀ e, f.urlFetch = Except.error e →
        dlFailMsg f.filename e ∈ (vrun E).errors) ∧
      (∀ st c, f.urlFetch = Except.ok (st, c) →
        (st ≠ 200 → httpStatusMsg f.filename st ∈ (vrun E).errors) ∧
        (∀ declared, truthyGet m (chars "sha256") = some declared →
          st = 200 → E.hash c ≠ declared →
          shaMismatchMsg f.filename declared (E.hash c) ∈ (vrun E).errors))) ∧
    (∀ u c, truthyGet m (chars "url") = some u →
      f.urlFetch = Except.ok (200, c) →
      (∀ declared, truthyGet m (chars "sha256") = some declared →
        E.hash c = declared) →
      urlErrsOf E f m = []) := by
  refine ⟨?_, ?_, ?_⟩
  · intro hurl
    apply fileErr_mem_vrun hf
    apply urlErr_mem_fileErrs hb hm
    unfold urlErrsOf
    rw [hurl]
    exact List.mem_singleton.mpr rfl
  · intro u hurl
    constructor
    · intro e hfe
      apply fileErr_mem_vrun hf
      apply urlErr_mem_fileErrs hb hm
      unfold urlErrsOf
      rw [hurl, hfe]
      exact List.mem_singleton.mpr rfl
    · intro st c hok
      constructor
      · intro hst
        apply fileErr_mem_vrun hf
        apply urlErr_mem_fileErrs hb hm
        unfold urlErrsOf
        rw [hurl, hok]
        dsimp only
        rw [if_pos hst]
        exact List.mem_singleton.mpr rfl
      · intro declared hsha hst hmis
        subst hst
        apply fileErr_mem_vrun hf
        apply urlErr_mem_fileErrs hb hm
        unfold urlErrsOf
        rw [hurl, hok]
        dsimp only
        rw [if_neg (by simp), hsha]
        dsimp only
        rw [if_pos hmis]
        exact List.mem_singleton.mpr rfl
  · intro u c hurl hok hsha
    unfold urlErrsOf
    rw [hurl, hok]
    dsimp only
    rw [if_neg (by simp)]
    cases hs2 : truthyGet m (chars "sha256") with
    | none => rfl
    | some declared =>
      dsimp only
      rw [if_neg (by simp [hsha declared hs2])]

/-- Witness for `C8_url_artifact_checks` on the HTTP-204 run. -/
theorem C8_url_artifact_checks_witness :
    httpStatusMsg (chars "manifests/app.json") 204 ∈ (vrun envC8).errors :=
  (((C8_url_artifact_checks envC8
      { filename := chars "manifests/app.json",
        fetch := Except.ok (chars "{}"),
        parse := Except.ok manifestC8,
        urlFetch := Except.ok (204, chars "B") }
      (by decide) (chars "{}") manifestC8 rfl rfl).2.1
    (chars "http://u") (by decide)).2 204 (chars "B") rfl).1 (by decide)

/-- The icon byte resolution, stated from the spec's words: prefer the icon
among the CR's own changed files; only when absent there, the stable `main`
branch copy; carries the reason text on failure. -/
def resolveIcon (E : Env) (pkg : List Char) : Except (List Char) (List Char) :=
  match E.files.find? (fun f => f.filename == iconPath pkg) with
  | some f =>
    match f.fetch with
    | Except.error e =>
      Except.error (chars "Failed to download icon from PR: " ++ e)
    | Except.ok c => Except.ok c
  | none =>
    match E.mainFetch (iconPath pkg) with
    | Except.error _ =>
      Except.error (chars "Icon not found in PR or main branch")
    | Except.ok c => Except.ok c

theorem validate_icon_resolve (E : Env) (pkg : List Char) :
    validate_icon_for_package E pkg =
      match resolveIcon E pkg with
      | Except.error e => (false, some e)
      | Except.ok c => iconContentCheck E c := by
  unfold validate_icon_for_package resolveIcon
  cases E.files.find? (fun f => f.filename == iconPath pkg) with
  | some f =>
    dsimp only
    cases f.fetch <;> rfl
  | none =>
    dsimp only
    cases E.mainFetch (iconPath pkg) <;> rfl

theorem iconContentCheck_true_iff (E : Env) (c : List Char) :
    (iconContentCheck E c).1 = true ↔
      c.length ≤ ICON_MAX_SIZE ∧
        E.decode c = Except.ok (chars "PNG", ICON_WIDTH, ICON_HEIGHT) := by
  unfold iconContentCheck
  by_cases hlen : c.length > ICON_MAX_SIZE
  · rw [if_pos hlen]
    constructor
    · intro h
      cases h
    · rintro ⟨h1, -⟩
      omega
  · rw [if_neg hlen]
    cases hd : E.decode c with
    | error e =>
      constructor
      · intro h
        cases h
      · rintro ⟨-, h2⟩
        cases h2
    | ok trip =>
      obtain ⟨fmt, w, h⟩ := trip
      dsimp only
      by_cases hfmt : fmt ≠ chars "PNG"
      · rw [if_pos hfmt]
        constructor
        · intro hx
          cases hx
        · rintro ⟨-, h2⟩
          injection h2 with h3
          exact absurd (congrArg Prod.fst h3) hfmt
      · rw [if_neg hfmt]
        rw [not_not] at hfmt
        by_cases hdim : w ≠ ICON_WIDTH ∨ h ≠ ICON_HEIGHT
        · rw [if_pos hdim]
          constructor
          · intro hx
            cases hx
          · rintro ⟨-, h2⟩
            injection h2 with h3
            rcases hdim with hw | hh
            · exact absurd (congrArg (fun t => t.2.1) h3) hw
            · exact absurd (congrArg (fun t => t.2.2) h3) hh
        · rw [if_neg hdim]
          push_neg at hdim
          constructor
          · intro _
            exact ⟨by omega, by rw [hfmt, hdim.1, hdim.2]⟩
          · intro _
            rfl

/-- C9: the icon check resolves candidate bytes by preferring the icon among
the CR's own changed files and falling back to the stable branch; it passes
iff the resolved bytes are at most 4096 bytes and decode as a PNG of exactly
32×32 pixels; and each single deviation — unresolvable bytes, oversize,
undecodable, wrong format, wrong dimensions — fails with its specific
reason string. -/
theorem C9_icon_validation (E : Env) (pkg : List Char) :
    ((validate_icon_for_package E pkg).1 = true ↔
      ∃ c, resolveIcon E pkg = Except.ok c ∧ c.length ≤ ICON_MAX_SIZE ∧
        E.decode c = Except.ok (chars "PNG", ICON_WIDTH, ICON_HEIGHT)) ∧
    (∀ f, E.files.find? (fun g => g.filename == iconPath pkg) = some f →
      validate_icon_for_package E pkg =
        (match f.fetch with
         | Except.error e =>
           (false, some (chars "Failed to download icon from PR: " ++ e))
         | Except.ok c => iconContentCheck E c)) ∧
    (E.files.find? (fun g => g.filename == iconPath pkg) = none →
      validate_icon_for_package E pkg =
        (match E.mainFetch (iconPath pkg) with
         | Except.error _ =>
           (false, some (chars "Icon not found in PR or main branch"))
         | Except.ok c => iconContentCheck E c)) ∧
    (∀ e, resolveIcon E pkg = Except.error e →
      validate_icon_for_package E pkg = (false, some e)) ∧
    (∀ c, resolveIcon E pkg = Except.ok c →
      (ICON_MAX_SIZE < c.length →
        validate_icon_for_package E pkg =
          (false, some (chars "Icon size exceeds 4096 bytes"))) ∧
      (c.length ≤ ICON_MAX_SIZE →
        (∀ e, E.decode c = Except.error e →
          validate_icon_for_package E pkg =
            (false, some (chars "Icon image invalid: " ++ e))) ∧
        (∀ fmt w h, E.decode c = Except.ok (fmt, w, h) →
          (fmt ≠ chars "PNG" →
            validate_icon_for_package E pkg =
              (false, some (chars "Icon is not PNG"))) ∧
          (fmt = chars "PNG" → (w ≠ ICON_WIDTH ∨ h ≠ ICON_HEIGHT) →
            validate_icon_for_package E pkg =
              (false, some (chars "Icon dimensions must be 32x32")))))) := by
  have hval := validate_icon_resolve E pkg
  refine ⟨?_, ?_, ?_, ?_, ?_⟩
  · rw [hval]
    cases hr : resolveIcon E pkg with
    | error e =>
      constructor
      · intro h
        cases h
      · rintro ⟨c, hc, -⟩
        cases hc
    | ok c =>
      rw [iconContentCheck_true_iff]
      constructor
      · intro hc
        exact ⟨c, rfl, hc⟩
      · rintro ⟨c', hc', hrest⟩
        injection hc' with hc2
        rw [hc2]
        exact hrest
  · intro f hfind
    unfold validate_icon_for_package
    rw [hfind]
  · intro hfind
    unfold validate_icon_for_package
    rw [hfind]
  · intro e hr
    rw [hval, hr]
  · intro c hr
    rw [hval, hr]
    dsimp only
    unfold iconContentCheck
    constructor
    · intro hlen
      rw [if_pos (by omega)]
    · intro hlen
      rw [if_neg (by omega)]
      constructor
      · intro e hd
        rw [hd]
      · intro fmt w h hd
        rw [hd]
        dsimp only
        constructor
        · intro hfmt
          rw [if_pos hfmt]
        · intro hfmt hdim
          rw [if_neg (by rw [hfmt]; simp), if_pos hdim]

def envC9 : Env :=
  { files := [{ filename := chars "icons/app.png",
                fetch := Except.ok (chars "PNGDATA"),
                parse := Except.error [], urlFetch := Except.error [] }],
    mainFetch := fun _ => Except.error (),
    hash := fun _ => [],
    decode := fun _ => Except.ok (chars "PNG", 32, 32),
    labels := [], comments := [] }

/-- Witness for `C9_icon_validation`: a 7-byte icon from the CR's own changes
that decodes as a 32×32 PNG passes. -/
theorem C9_icon_validation_witness :
    (validate_icon_for_package envC9 (chars "app")).1 = true :=
  (C9_icon_validation envC9 (chars "app")).1.mpr
    ⟨chars "PNGDATA", by decide, by decide, by decide⟩

/-! Lemmas for the ledger round trip (C7). -/

theorem firstIdx_of_isPrefixOf {p s : List Char} (h : p.isPrefixOf s = true) :
    firstIdx p s = some 0 := by
  cases s with
  | nil => simp [firstIdx, h]
  | cons c t => simp [firstIdx, h]

theorem firstIdx_append_isSome {p s : List Char} (a : List Char)
    (h : (firstIdx p s).isSome = true) :
    (firstIdx p (a ++ s)).isSome = true := by
  induction a with
  | nil => exact h
  | cons c t ih =>
    show (firstIdx p (c :: (t ++ s))).isSome = true
    unfold firstIdx
    by_cases hp : p.isPrefixOf (c :: (t ++ s)) = true
    · simp [hp]
    · rw [Bool.not_eq_true] at hp
      simp only [hp, Bool.false_eq_true, if_false, ite_false, Option.isSome_map']
      exact ih

theorem no_end_prefix (l : List Char) (hl : '>' ∉ l) :
    MARKER_END.isPrefixOf (l ++ '\n' :: MARKER_END) = false := by
  by_contra hcon
  rw [Bool.not_eq_false] at hcon
  have hpre : MARKER_END <+: (l ++ '\n' :: MARKER_END) :=
    List.isPrefixOf_iff_prefix.mp hcon
  by_cases hlen : MARKER_END.length ≤ l.length
  · have h1 : (l ++ '\n' :: MARKER_END).take MARKER_END.length =
        l.take MARKER_END.length :=
      List.take_append_of_le_length hlen
    have h2 : (l ++ '\n' :: MARKER_END).take MARKER_END.length = MARKER_END := by
      rcases hpre with ⟨t, ht⟩
      rw [← ht, List.take_append_of_le_length (Nat.le_refl _), List.take_length]
    have h3 : '>' ∈ l.take MARKER_END.length := by
      rw [← h1, h2]
      decide
    exact hl (List.take_subset _ _ h3)
  · push_neg at hlen
    have h1 : (l ++ '\n' :: MARKER_END)[l.length]? = some '\n' := by
      rw [List.getElem?_append_right (Nat.le_refl _)]
      simp
    have h2 : MARKER_END[l.length]? = some '\n' := by
      rcases hpre with ⟨t, ht⟩
      rw [← ht, List.getElem?_append_left hlen] at h1
      exact h1
    have h3 : '\n' ∈ MARKER_END := by
      rcases List.getElem?_eq_some.mp h2 with ⟨hlt, hv⟩
      exact hv ▸ List.getElem_mem hlt
    revert h3
    decide

theorem firstIdx_end_sentinel (s : List Char) (hs : '>' ∉ s) :
    firstIdx MARKER_END (s ++ '\n' :: MARKER_END) = some (s.length + 1) := by
  induction s with
  | nil => decide
  | cons c t ih =>
    have hct : '>' ∉ t := fun hm => hs (List.mem_cons_of_mem c hm)
    have hno := no_end_prefix (c :: t) hs
    rw [List.cons_append] at hno
    show firstIdx MARKER_END (c :: (t ++ '\n' :: MARKER_END)) =
      some (t.length + 2)
    unfold firstIdx
    simp only [hno, Bool.false_eq_true, if_false, ite_false]
    rw [ih hct]
    rfl

/-- No key and no string value of the mapping contains the character `'>'`
(the last character of the end delimiter); hex digests and manifest paths
satisfy this. -/
def ledgerGtFree (d : Ledger) : Bool :=
  d.all fun kv =>
    decide (('>' : Char) ∉ kv.1) &&
      (match kv.2 with
       | none => true
       | some v => decide (('>' : Char) ∉ v))

theorem ledgerGtFree_cons {kv : List Char × Option (List Char)} {rest : Ledger}
    (h : ledgerGtFree (kv :: rest) = true) :
    ('>' ∉ kv.1 ∧ ∀ x, kv.2 = some x → '>' ∉ x) ∧ ledgerGtFree rest = true := by
  unfold ledgerGtFree at h ⊢
  rw [List.all_cons, Bool.and_eq_true] at h
  rcases h with ⟨h1, h2⟩
  rw [Bool.and_eq_true] at h1
  refine ⟨⟨of_decide_eq_true h1.1, ?_⟩, h2⟩
  intro x hx
  rw [hx] at h1
  exact of_decide_eq_true h1.2

theorem hexDig_ne_gt : ∀ m < 16, hexDig m ≠ '>' := by decide

theorem gt_not_mem_escChar {c : Char} (hc : c ≠ '>') : '>' ∉ escChar c := by
  unfold escChar
  split_ifs with h1 h2 h3 h4 h5 h6 h7 h8
  · decide
  · decide
  · decide
  · decide
  · decide
  · decide
  · decide
  · intro hmem
    simp only [List.mem_cons, List.not_mem_nil, or_false] at hmem
    rcases hmem with h | h | h | h | h | h
    · exact absurd h (by decide)
    · exact absurd h (by decide)
    · exact absurd h (by decide)
    · exact absurd h (by decide)
    · exact absurd h.symm (hexDig_ne_gt (c.toNat / 16) (by omega))
    · exact absurd h.symm (hexDig_ne_gt (c.toNat % 16) (by omega))
  · intro hmem
    simp only [List.mem_cons, List.not_mem_nil, or_false] at hmem
    exact hc hmem.symm

theorem gt_not_mem_escStr {s : List Char} (hs : '>' ∉ s) : '>' ∉ escStr s := by
  induction s with
  | nil => simp [escStr]
  | cons c t ih =>
    simp only [escStr, List.mem_append]
    rintro (h | h)
    · refine gt_not_mem_escChar ?_ h
      intro he
      exact hs (by rw [← he]; exact List.mem_cons_self c t)
    · exact ih (fun hm => hs (List.mem_cons_of_mem c hm)) h

theorem gt_not_mem_jval {v : Option (List Char)}
    (hv : ∀ x, v = some x → '>' ∉ x) : '>' ∉ jval v := by
  cases v with
  | none => decide
  | some s =>
    intro hmem
    simp only [jval, jquote, List.mem_cons, List.mem_append,
      List.mem_singleton] at hmem
    rcases hmem with h | h | h
    · exact absurd h (by decide)
    · exact gt_not_mem_escStr (hv s rfl) h
    · exact absurd h (by decide)

theorem gt_not_mem_jentry {kv : List Char × Option (List Char)}
    (h1 : '>' ∉ kv.1) (h2 : ∀ x, kv.2 = some x → '>' ∉ x) :
    '>' ∉ jentry kv := by
  intro hmem
  simp only [jentry, List.mem_append] at hmem
  rcases hmem with ((ha | hb) | hc) | hd2
  · exact absurd ha (by decide)
  · simp only [jquote, List.mem_cons, List.mem_append,
      List.mem_singleton] at hb
    rcases hb with h | h | h
    · exact absurd h (by decide)
    · exact gt_not_mem_escStr h1 h
    · exact absurd h (by decide)
  · exact absurd hc (by decide)
  · exact gt_not_mem_jval h2 hd2

theorem gt_not_mem_jentries {d : Ledger} (hd : ledgerGtFree d = true) :
    '>' ∉ jentries d := by
  induction d with
  | nil => simp [jentries]
  | cons kv rest ih =>
    rcases ledgerGtFree_cons hd with ⟨⟨h1, h2⟩, hrest⟩
    cases rest with
    | nil =>
      show '>' ∉ jentry kv
      exact gt_not_mem_jentry h1 h2
    | cons kv2 rest2 =>
      show '>' ∉ jentry kv ++ chars ",\n" ++ jentries (kv2 :: rest2)
      intro hmem
      simp only [List.mem_append] at hmem
      rcases hmem with (h | h) | h
      · exact gt_not_mem_jentry h1 h2 h
      · exact absurd h (by decide)
      · exact ih hrest h

theorem gt_not_mem_dumps {d : Ledger} (hd : ledgerGtFree d = true) :
    '>' ∉ jsonDumps d := by
  cases d with
  | nil => decide
  | cons kv rest =>
    show '>' ∉ '{' :: '\n' :: (jentries (kv :: rest) ++ ('\n' :: ['}']))
    intro hmem
    simp only [List.mem_cons, List.mem_append, List.not_mem_nil,
      or_false] at hmem
    rcases hmem with h | h | h | h | h
    · exact absurd h (by decide)
    · exact absurd h (by decide)
    · exact gt_not_mem_jentries hd h
    · exact absurd h (by decide)
    · exact absurd h (by decide)

theorem skipWs_cons_ws {c : Char} (h : jWs c = true) (l : List Char) :
    skipWs (c :: l) = skipWs l := by
  simp [skipWs, List.dropWhile_cons, h]

theorem skipWs_cons_nonws {c : Char} (h : jWs c = false) (l : List Char) :
    skipWs (c :: l) = c :: l := by
  simp [skipWs, List.dropWhile_cons, h]

theorem escStr_length_ge (s : List Char) : s.length ≤ (escStr s).length := by
  induction s with
  | nil => simp [escStr]
  | cons c t ih =>
    have hc : 1 ≤ (escChar c).length := by
      unfold escChar
      split_ifs <;> simp
    simp only [escStr, List.length_cons, List.length_append]
    omega

theorem hexVal_hexDig : ∀ m < 16, hexVal (hexDig m) = some m := by decide

theorem pStrAux_quote (f : Nat) (r : List Char) :
    pStrAux (f + 1) ('"' :: r) = some ([], r) := by
  simp [pStrAux]

theorem pStrAux_escDirect (f : Nat) {e : Char} (r : List Char)
    (he : e = '"' ∨ e = '\\' ∨ e = '/') :
    pStrAux (f + 1) ('\\' :: e :: r) =
      (pStrAux f r).map (fun sr => (e :: sr.1, sr.2)) := by
  simp [pStrAux, he]

theorem pStrAux_escN (f : Nat) (r : List Char) :
    pStrAux (f + 1) ('\\' :: 'n' :: r) =
      (pStrAux f r).map (fun sr => ('\n' :: sr.1, sr.2)) := by
  simp [pStrAux]

theorem pStrAux_escT (f : Nat) (r : List Char) :
    pStrAux (f + 1) ('\\' :: 't' :: r) =
      (pStrAux f r).map (fun sr => ('\t' :: sr.1, sr.2)) := by
  simp [pStrAux]

theorem pStrAux_escR (f : Nat) (r : List Char) :
    pStrAux (f + 1) ('\\' :: 'r' :: r) =
      (pStrAux f r).map (fun sr => ('\r' :: sr.1, sr.2)) := by
  simp [pStrAux]

theorem pStrAux_escB (f : Nat) (r : List Char) :
    pStrAux (f + 1) ('\\' :: 'b' :: r) =
      (pStrAux f r).map (fun sr => ('\x08' :: sr.1, sr.2)) := by
  simp [pStrAux]

theorem pStrAux_escF (f : Nat) (r : List Char) :
    pStrAux (f + 1) ('\\' :: 'f' :: r) =
      (pStrAux f r).map (fun sr => ('\x0c' :: sr.1, sr.2)) := by
  simp [pStrAux]

theorem pStrAux_escU (f : Nat) {h1 h2 h3 h4 : Char} (r : List Char)
    {a b c1 d1 : Nat}
    (e1 : hexVal h1 = some a) (e2 : hexVal h2 = some b)
    (e3 : hexVal h3 = some c1) (e4 : hexVal h4 = some d1) :
    pStrAux (f + 1) ('\\' :: 'u' :: h1 :: h2 :: h3 :: h4 :: r) =
      (pStrAux f r).map
        (fun sr => (Char.ofNat (((a * 16 + b) * 16 + c1) * 16 + d1) :: sr.1,
          sr.2)) := by
  simp [pStrAux, e1, e2, e3, e4]

theorem pStrAux_plain (f : Nat) {c : Char} (r : List Char)
    (h1 : ¬ c = '"') (h2 : ¬ c = '\\') (h3 : ¬ c.toNat < 32) :
    pStrAux (f + 1) (c :: r) =
      (pStrAux f r).map (fun sr => (c :: sr.1, sr.2)) := by
  conv_lhs => unfold pStrAux
  rw [if_neg h1, if_neg h2, if_neg h3]

theorem pStrAux_esc (s : List Char) :
    ∀ (fuel : Nat) (r : List Char), s.length < fuel →
      pStrAux fuel (escStr s ++ '"' :: r) = some (s, r) := by
  induction s with
  | nil =>
    intro fuel r hf
    cases fuel with
    | zero => omega
    | succ f =>
      show pStrAux (f + 1) ('"' :: r) = some ([], r)
      exact pStrAux_quote f r
  | cons c t ih =>
    intro fuel r hf
    cases fuel with
    | zero => omega
    | succ f =>
      have hft : t.length < f := by
        simp only [List.length_cons] at hf
        omega
      show pStrAux (f + 1) ((escChar c ++ escStr t) ++ '"' :: r) =
        some (c :: t, r)
      rw [List.append_assoc]
      unfold escChar
      by_cases hc1 : c = '"'
      · rw [if_pos hc1]
        subst hc1
        rw [show ((['\\', '"'] : List Char) ++ (escStr t ++ '"' :: r)) =
          '\\' :: '"' :: (escStr t ++ '"' :: r) from rfl]
        rw [pStrAux_escDirect f _ (Or.inl rfl), ih f r hft]
        rfl
      · rw [if_neg hc1]
        by_cases hc2 : c = '\\'
        · rw [if_pos hc2]
          subst hc2
          rw [show ((['\\', '\\'] : List Char) ++ (escStr t ++ '"' :: r)) =
            '\\' :: '\\' :: (escStr t ++ '"' :: r) from rfl]
          rw [pStrAux_escDirect f _ (Or.inr (Or.inl rfl)), ih f r hft]
          rfl
        · rw [if_neg hc2]
          by_cases hc3 : c = '\n'
          · rw [if_pos hc3]
            subst hc3
            rw [show ((['\\', 'n'] : List Char) ++ (escStr t ++ '"' :: r)) =
              '\\' :: 'n' :: (escStr t ++ '"' :: r) from rfl]
            rw [pStrAux_escN f _, ih f r hft]
            rfl
          · rw [if_neg hc3]
            by_cases hc4 : c = '\t'
            · rw [if_pos hc4]
              subst hc4
              rw [show ((['\\', 't'] : List Char) ++ (escStr t ++ '"' :: r)) =
                '\\' :: 't' :: (escStr t ++ '"' :: r) from rfl]
              rw [pStrAux_escT f _, ih f r hft]
              rfl
            · rw [if_neg hc4]
              by_cases hc5 : c = '\r'
              · rw [if_pos hc5]
                subst hc5
                rw [show ((['\\', 'r'] : List Char) ++ (escStr t ++ '"' :: r)) =
                  '\\' :: 'r' :: (escStr t ++ '"' :: r) from rfl]
                rw [pStrAux_escR f _, ih f r hft]
                rfl
              · rw [if_neg hc5]
                by_cases hc6 : c = '\x08'
                · rw [if_pos hc6]
                  subst hc6
                  rw [show ((['\\', 'b'] : List Char) ++ (escStr t ++ '"' :: r)) =
                    '\\' :: 'b' :: (escStr t ++ '"' :: r) from rfl]
                  rw [pStrAux_escB f _, ih f r hft]
                  rfl
                · rw [if_neg hc6]
                  by_cases hc7 : c = '\x0c'
                  · rw [if_pos hc7]
                    subst hc7
                    rw [show ((['\\', 'f'] : List Char) ++ (escStr t ++ '"' :: r)) =
                      '\\' :: 'f' :: (escStr t ++ '"' :: r) from rfl]
                    rw [pStrAux_escF f _, ih f r hft]
                    rfl
                  · rw [if_neg hc7]
                    by_cases hc8 : c.toNat < 32
                    · rw [if_pos hc8]
                      rw [show ((['\\', 'u', '0', '0', hexDig (c.toNat / 16),
                            hexDig (c.toNat % 16)] : List Char) ++
                          (escStr t ++ '"' :: r)) =
                        '\\' :: 'u' :: '0' :: '0' :: hexDig (c.toNat / 16) ::
                          hexDig (c.toNat % 16) :: (escStr t ++ '"' :: r) from rfl]
                      rw [pStrAux_escU f _
                        (show hexVal '0' = some 0 by decide)
                        (show hexVal '0' = some 0 by decide)
                        (hexVal_hexDig (c.toNat / 16) (by omega))
                        (hexVal_hexDig (c.toNat % 16) (by omega))]
                      rw [ih f r hft]
                      have hn : ((0 * 16 + 0) * 16 + c.toNat / 16) * 16 +
                          c.toNat % 16 = c.toNat := by omega
                      rw [hn, Char.ofNat_toNat]
                      rfl
                    · rw [if_neg hc8]
                      rw [show (([c] : List Char) ++ (escStr t ++ '"' :: r)) =
                        c :: (escStr t ++ '"' :: r) from rfl]
                      rw [pStrAux_plain f _ hc1 hc2 hc8, ih f r hft]
                      rfl

theorem pStr_esc (s r : List Char) : pStr (escStr s ++ '"' :: r) = some (s, r) := by
  unfold pStr
  apply pStrAux_esc
  have h := escStr_length_ge s
  simp only [List.length_append, List.length_cons]
  omega

theorem jval_some_append (s cont : List Char) :
    jval (some s) ++ cont = '"' :: (escStr s ++ '"' :: cont) := by
  simp [jval, jquote, List.append_assoc]

theorem skipWs_jval (v : Option (List Char)) (cont : List Char) :
    skipWs (jval v ++ cont) = jval v ++ cont := by
  cases v with
  | none =>
    rw [show jval none ++ cont = 'n' :: 'u' :: 'l' :: 'l' :: cont from rfl]
    exact skipWs_cons_nonws (by decide) _
  | some s =>
    rw [jval_some_append]
    exact skipWs_cons_nonws (by decide) _

theorem pVal_jval (v : Option (List Char)) (cont : List Char) :
    pVal (jval v ++ cont) = some (v, cont) := by
  cases v with
  | none =>
    rw [show jval none ++ cont = 'n' :: 'u' :: 'l' :: 'l' :: cont from rfl]
    rfl
  | some s =>
    rw [jval_some_append]
    show pVal ('"' :: (escStr s ++ '"' :: cont)) = some (some s, cont)
    simp only [pVal]
    rw [pStr_esc]
    rfl

/-- The serialized run from the opening quote of a member's key onward. -/
def entryAfterQuote (kv : List Char × Option (List Char)) (cont : List Char) :
    List Char :=
  escStr kv.1 ++ '"' :: ':' :: ' ' :: (jval kv.2 ++ cont)

/-- What follows a member's value: the separator and the next member lines,
or the closing of the object. -/
def contOf (rest : Ledger) (r : List Char) : List Char :=
  match rest with
  | [] => '\n' :: '}' :: r
  | _ :: _ => ',' :: '\n' :: (jentries rest ++ '\n' :: '}' :: r)

theorem jentries_shape (kv : List Char × Option (List Char)) (rest : Ledger)
    (r : List Char) :
    jentries (kv :: rest) ++ '\n' :: '}' :: r =
      ' ' :: ' ' :: '"' :: entryAfterQuote kv (contOf rest r) := by
  cases rest with
  | nil =>
    show jentry kv ++ '\n' :: '}' :: r = _
    unfold jentry entryAfterQuote contOf jquote
    rw [show chars "  " = [' ', ' '] from rfl, show chars ": " = [':', ' '] from rfl]
    simp [List.append_assoc]
  | cons kv2 rest2 =>
    show jentry kv ++ chars ",\n" ++ jentries (kv2 :: rest2) ++ '\n' :: '}' :: r = _
    unfold jentry entryAfterQuote contOf jquote
    rw [show chars "  " = [' ', ' '] from rfl, show chars ": " = [':', ' '] from rfl,
      show chars ",\n" = [',', '\n'] from rfl]
    simp [List.append_assoc]

theorem pMembersAux_step (f : Nat) (k : List Char) (v : Option (List Char))
    (cont : List Char) :
    pMembersAux (f + 1) ('"' :: entryAfterQuote (k, v) cont) =
      (match skipWs cont with
       | [] => none
       | c5 :: r6 =>
         if c5 = ',' then
           (pMembersAux f (skipWs r6)).map (fun drr => ((k, v) :: drr.1, drr.2))
         else if c5 = '}' then some ([(k, v)], r6)
         else none) := by
  show pMembersAux (f + 1)
      ('"' :: (escStr k ++ '"' :: ':' :: ' ' :: (jval v ++ cont))) = _
  simp only [pMembersAux]
  rw [if_true]
  rw [show (escStr k ++ '"' :: ':' :: ' ' :: (jval v ++ cont)) =
    (escStr k ++ '"' :: (':' :: ' ' :: (jval v ++ cont))) from rfl]
  rw [pStr_esc]
  dsimp only
  rw [skipWs_cons_nonws (by decide)]
  dsimp only
  rw [if_pos rfl]
  rw [skipWs_cons_ws (by decide)]
  rw [skipWs_jval, pVal_jval]

theorem entry_len_ge (rest : Ledger) :
    ∀ (kv : List Char × Option (List Char)) (r : List Char),
      (kv :: rest).length ≤ ('"' :: entryAfterQuote kv (contOf rest r)).length := by
  induction rest with
  | nil =>
    intro kv r
    simp [entryAfterQuote]
  | cons kv2 rest2 ih =>
    intro kv r
    have h := ih kv2 r
    have hlen := congrArg List.length (jentries_shape kv2 rest2 r)
    have hC : (contOf (kv2 :: rest2) r).length =
        2 + (jentries (kv2 :: rest2) ++ '\n' :: '}' :: r).length := by
      rw [show contOf (kv2 :: rest2) r =
        ',' :: '\n' :: (jentries (kv2 :: rest2) ++ '\n' :: '}' :: r) from rfl]
      simp only [List.length_cons, List.length_append]
      omega
    have hE : 3 + (contOf (kv2 :: rest2) r).length ≤
        (entryAfterQuote kv (contOf (kv2 :: rest2) r)).length := by
      simp only [entryAfterQuote, List.length_append, List.length_cons]
      omega
    simp only [List.length_cons] at h ⊢
    simp only [List.length_cons, List.length_append] at hlen hC
    omega

theorem pMembers_inv (rest : Ledger) :
    ∀ (kv : List Char × Option (List Char)) (r : List Char) (fuel : Nat),
      (kv :: rest).length ≤ fuel →
      pMembersAux fuel ('"' :: entryAfterQuote kv (contOf rest r)) =
        some (kv :: rest, r) := by
  induction rest with
  | nil =>
    intro kv r fuel hf
    cases fuel with
    | zero => simp at hf
    | succ f =>
      obtain ⟨k, v⟩ := kv
      rw [pMembersAux_step]
      rw [show contOf [] r = '\n' :: '}' :: r from rfl]
      rw [skipWs_cons_ws (by decide), skipWs_cons_nonws (by decide)]
      dsimp only
      rw [if_neg (by decide), if_pos rfl]
  | cons kv2 rest2 ih =>
    intro kv r fuel hf
    cases fuel with
    | zero => simp at hf
    | succ f =>
      obtain ⟨k, v⟩ := kv
      rw [pMembersAux_step]
      rw [show contOf (kv2 :: rest2) r =
        ',' :: '\n' :: (jentries (kv2 :: rest2) ++ '\n' :: '}' :: r) from rfl]
      rw [skipWs_cons_nonws (by decide)]
      dsimp only
      rw [if_pos rfl]
      rw [skipWs_cons_ws (by decide)]
      rw [jentries_shape kv2 rest2 r]
      rw [skipWs_cons_ws (by decide), skipWs_cons_ws (by decide),
        skipWs_cons_nonws (by decide)]
      have hf2 : (kv2 :: rest2).length ≤ f := by
        simp only [List.length_cons] at hf ⊢
        omega
      rw [ih kv2 r f hf2]
      rfl

theorem jsonLoads_jsonDumps (d : Ledger) : jsonLoads (jsonDumps d) = some d := by
  cases d with
  | nil => decide
  | cons kv rest =>
    show jsonLoads ('{' :: '\n' :: (jentries (kv :: rest) ++ ('\n' :: ['}']))) =
      some (kv :: rest)
    unfold jsonLoads
    rw [skipWs_cons_nonws (by decide)]
    dsimp only
    rw [if_pos rfl]
    rw [skipWs_cons_ws (by decide)]
    rw [show (jentries (kv :: rest) ++ ('\n' :: ['}'])) =
      (jentries (kv :: rest) ++ '\n' :: '}' :: ([] : List Char)) from rfl]
    rw [jentries_shape kv rest []]
    rw [skipWs_cons_ws (by decide), skipWs_cons_ws (by decide),
      skipWs_cons_nonws (by decide)]
    dsimp only
    rw [if_neg (by decide)]
    have hfuel := entry_len_ge rest kv ([] : List Char)
    rw [pMembers_inv rest kv ([] : List Char)
      (('"' :: entryAfterQuote kv (contOf rest [])).length + 1)
      (by omega)]
    dsimp only
    rw [if_pos (show skipWs ([] : List Char) = [] from by decide)]

theorem jsonDumps_shape (d : Ledger) :
    ∃ m, jsonDumps d = '{' :: m ++ ['}'] := by
  cases d with
  | nil => exact ⟨[], by decide⟩
  | cons kv rest =>
    refine ⟨'\n' :: jentries (kv :: rest) ++ ['\n'], ?_⟩
    show '{' :: '\n' :: (jentries (kv :: rest) ++ ('\n' :: ['}'])) = _
    simp

theorem pyStrip_wrap (m : List Char) :
    pyStrip ('\n' :: (('{' :: m ++ ['}']) ++ ['\n'])) = '{' :: m ++ ['}'] := by
  have h1 : pySpace '\n' = true := by decide
  have h2 : pySpace '{' = false := by decide
  have h3 : pySpace '}' = false := by decide
  unfold pyStrip
  rw [show ('\n' :: (('{' :: m ++ ['}']) ++ ['\n'])) =
    '\n' :: '{' :: ((m ++ ['}']) ++ ['\n']) from by simp]
  simp only [List.dropWhile_cons, h1, h2, Bool.false_eq_true, eq_self_iff_true,
    ite_true, ite_false, if_true, if_false]
  rw [show ('{' :: ((m ++ ['}']) ++ ['\n'])) =
    ((('{' :: m) ++ ['}']) ++ ['\n']) from by simp]
  rw [List.reverse_append, List.reverse_append]
  simp only [List.reverse_cons, List.reverse_nil, List.nil_append,
    List.singleton_append, List.cons_append, List.append_assoc]
  simp only [List.dropWhile_cons, h1, h3, Bool.false_eq_true, eq_self_iff_true,
    ite_true, ite_false, if_true, if_false]
  simp [List.reverse_append]

theorem extractLedger_markerBody {d : Ledger} (hd : ledgerGtFree d = true) :
    extractLedger (markerBody d) = some d := by
  obtain ⟨m, hm⟩ := jsonDumps_shape d
  have hnl : ('>' : Char) ∉ '\n' :: jsonDumps d := by
    intro hmem
    rcases List.mem_cons.mp hmem with h | h
    · exact absurd h (by decide)
    · exact gt_not_mem_dumps hd h
  have hTsplit : ('\n' :: (jsonDumps d ++ '\n' :: MARKER_END)) =
      (('\n' :: jsonDumps d) ++ '\n' :: MARKER_END) := by simp
  have hsent : firstIdx MARKER_END ('\n' :: (jsonDumps d ++ '\n' :: MARKER_END)) =
      some ((jsonDumps d).length + 2) := by
    rw [hTsplit, firstIdx_end_sentinel ('\n' :: jsonDumps d) hnl]
    simp
  have hpre : MARKER_START.isPrefixOf (markerBody d) = true := by
    rw [List.isPrefixOf_iff_prefix]
    exact ⟨_, rfl⟩
  have hidx0 : firstIdx MARKER_START (markerBody d) = some 0 :=
    firstIdx_of_isPrefixOf hpre
  have hg1 : containsSub MARKER_START (markerBody d) = true := by
    unfold containsSub
    rw [hidx0]
    rfl
  have hg2 : containsSub MARKER_END (markerBody d) = true := by
    unfold containsSub
    show (firstIdx MARKER_END
      (MARKER_START ++ '\n' :: (jsonDumps d ++ '\n' :: MARKER_END))).isSome = true
    apply firstIdx_append_isSome
    rw [hsent]
    rfl
  have hdrop : (markerBody d).drop MARKER_START.length =
      '\n' :: (jsonDumps d ++ '\n' :: MARKER_END) := by
    unfold markerBody
    exact List.drop_left _ _
  have hfrom : firstIdxFrom MARKER_END (markerBody d) MARKER_START.length =
      some ((jsonDumps d).length + 2 + MARKER_START.length) := by
    unfold firstIdxFrom
    rw [hdrop, hsent]
    rfl
  have htake : (markerBody d).take
      ((jsonDumps d).length + 2 + MARKER_START.length) =
      MARKER_START ++ ('\n' :: (jsonDumps d ++ ['\n'])) := by
    rw [show (jsonDumps d).length + 2 + MARKER_START.length =
      MARKER_START.length + ((jsonDumps d).length + 1 + 1) from by omega]
    unfold markerBody
    rw [List.take_append]
    congr 1
    rw [List.take_succ_cons]
    congr 1
    rw [show (jsonDumps d).length + 1 = (jsonDumps d).length + 1 from rfl]
    rw [show (jsonDumps d ++ '\n' :: MARKER_END) =
      (jsonDumps d ++ ('\n' :: MARKER_END)) from rfl]
    rw [List.take_append]
    rfl
  have hslice : ((markerBody d).take
      ((jsonDumps d).length + 2 + MARKER_START.length)).drop
        MARKER_START.length = '\n' :: (jsonDumps d ++ ['\n']) := by
    rw [htake]
    exact List.drop_left _ _
  unfold extractLedger
  rw [hg1, hg2]
  simp only [Bool.and_self]
  rw [if_true]
  rw [hidx0]
  dsimp only
  simp only [Nat.zero_add]
  rw [hfrom]
  dsimp only
  rw [hslice, hm, pyStrip_wrap, ← hm, jsonLoads_jsonDumps]

def ledgerC7bad : Ledger := [(MARKER_END, none)]

/-- C7 counterexample: publish a mapping whose (single) key is the end
delimiter string itself, then read: the delimiter occurrence inside the
serialized block truncates the slice, the parse fails, the fresh annotation
is skipped, and with no older annotation the read returns nothing — not a
structurally equal mapping. -/
theorem C7_counterexample :
    find_marker_comment (post_marker_comment [] ledgerC7bad) = none ∧
    (find_marker_comment (post_marker_comment [] ledgerC7bad)).map Prod.snd ≠
      some ledgerC7bad :=
  ⟨by decide, by decide⟩

/-- C7 (amended): for every mapping whose keys and string values avoid the
character `'>'` (the end delimiter's last character; every real ledger of
manifest paths and hex digests qualifies), publishing onto any comment list
and then reading returns the freshly posted annotation with a structurally
equal mapping.  The read scans newest first: a newest comment whose
delimited block fails to extract or parse is skipped in favour of the older
comments, and one whose block parses is returned directly. -/
theorem C7_ledger_roundtrip (d : Ledger) (comments : List (List Char))
    (b : List Char) :
    (ledgerGtFree d = true →
      find_marker_comment (post_marker_comment comments d) =
        some (markerBody d, d)) ∧
    (extractLedger b = none →
      find_marker_comment (comments ++ [b]) = find_marker_comment comments) ∧
    (∀ d2, extractLedger b = some d2 →
      find_marker_comment (comments ++ [b]) = some (b, d2)) := by
  refine ⟨?_, ?_, ?_⟩
  · intro hd
    unfold post_marker_comment find_marker_comment
    rw [List.reverse_append]
    show findMarkerAux (markerBody d ::
      (comments.filter fun c => !(containsSub MARKER_START c)).reverse) = _
    unfold findMarkerAux
    rw [extractLedger_markerBody hd]
  · intro hb
    unfold find_marker_comment
    rw [List.reverse_append]
    show findMarkerAux (b :: comments.reverse) = findMarkerAux comments.reverse
    conv_lhs => unfold findMarkerAux
    rw [hb]
  · intro d2 hb
    unfold find_marker_comment
    rw [List.reverse_append]
    show findMarkerAux (b :: comments.reverse) = some (b, d2)
    unfold findMarkerAux
    rw [hb]

def ledgerC7 : Ledger :=
  [(chars "manifests/app.json", some (chars "ab12cd")),
   (chars "manifests/lib.json", none)]

/-- Witness for `C7_ledger_roundtrip`: a two-entry ledger published over an
existing unrelated comment reads back structurally equal. -/
theorem C7_ledger_roundtrip_witness :
    ledgerGtFree ledgerC7 = true ∧
    find_marker_comment (post_marker_comment [chars "older comment"] ledgerC7) =
      some (markerBody ledgerC7, ledgerC7) :=
  ⟨by decide,
   (C7_ledger_roundtrip ledgerC7 [chars "older comment"] []).1 (by decide)⟩
